import Mathlib

/-!
Verification of the `promptflow/_utils/tool_utils.py` utilities.

The development shallowly embeds the module: Python classes consulted by the
code are modelled as a record of the attributes the code reads, Python values
as an inductive type, Python dicts as insertion-ordered association lists, and
the fallible helpers as `Except`-valued functions.  Entities that the module
imports from elsewhere in the repository (the contracts module with
`ValueType`, `InputDefinition`, `Tool` and `ConnectionType`, and the helper
`is_json_serializable`) are not among the sources; their models are marked
`Modelled from the spec:` in their documentation.
-/

set_option autoImplicit false

namespace ToolUtils

/-- Modelled from the spec: the closed vocabulary of declared value types
(the contracts module `ValueType` enumeration is not among the sources).
Only the members this module touches are modelled. -/
inductive ValueType
  | INT
  | DOUBLE
  | BOOL
  | STRING
  | LIST
  | OBJECT
  | IMAGE
deriving DecidableEq, Repr

/-- A model of a Python class object exactly as `tool_utils` consults it: its
`__name__`, the two connection-classification predicates of the contracts
module (`ConnectionType.is_connection_value` and
`ConnectionType.is_custom_strong_type`, Modelled from the spec as opaque
capability flags carried by the class, since the contracts module is not among
the sources), and — when the metaclass is `EnumMeta` — the ordered list of the
stringified member values. -/
structure PyType where
  name : String
  is_connection : Bool
  is_custom_strong : Bool
  enum_members : Option (List String)
deriving DecidableEq, Repr

/-- The Python `NoneType` class (the "absence" member filtered out of
unions). -/
def noneTypePy : PyType := ⟨"NoneType", false, false, Option.none⟩

/-- The Python builtin `str` class, to which an enum-typed parameter is
re-typed. -/
def strPy : PyType := ⟨"str", false, false, Option.none⟩

/-- The sentinel `inspect.Parameter.empty`, standing for an absent annotation
or an absent default. -/
def emptyPy : PyType := ⟨"_empty", false, false, Option.none⟩

/-- The Python builtin `int` class. -/
def intPy : PyType := ⟨"int", false, false, Option.none⟩

/-- A (non custom strong type) connection class, as classified by the
contracts module. -/
def connPy : PyType := ⟨"FakeConnection", true, false, Option.none⟩

/-- A custom strong type connection class, as classified by the contracts
module. -/
def customPy : PyType := ⟨"MyCustomConn", true, true, Option.none⟩

/-- Modelled from the spec: `ValueType.from_type`, the fixed mapping from a
language-level type to a declared type tag; unsupported types fall into the
generic object bucket. -/
def ValueType.from_type (t : PyType) : ValueType :=
  if t.name = "int" then ValueType.INT
  else if t.name = "float" then ValueType.DOUBLE
  else if t.name = "bool" then ValueType.BOOL
  else if t.name = "str" then ValueType.STRING
  else if t.name = "list" then ValueType.LIST
  else ValueType.OBJECT

/-- An element of an `InputDefinition.type` list: the Python code mixes
`ValueType` members with plain strings (connection class names and the
literal string "CustomConnection"), so the model keeps the two shapes
apart. -/
inductive TypeTag
  | value (v : ValueType)
  | conn (name : String)
deriving DecidableEq, Repr

/-- A Python runtime value, as far as the module inspects values: the
constructors record exactly the type information `isinstance` checks read.
`pyObj` stands for any instance of a class outside the modelled builtins
(for example, a non JSON-serializable object). -/
inductive PyVal
  | pyNone
  | pyBool (b : Bool)
  | pyInt (n : Int)
  | pyFloat (isZero : Bool)
  | pyStr (s : String)
  | pyList (xs : List PyVal)
  | pyDict (entries : List (PyVal × PyVal))
  | pyObj (clsName : String)

/-- A type annotation as `resolve_annotation` receives it: either a plain
class (which includes the sentinel `emptyPy` when the parameter carries no
annotation) or a union with its `get_args` member list. -/
inductive Anno
  | plain (t : PyType)
  | union (args : List PyType)
deriving DecidableEq, Repr

/-- The result shape of `resolve_annotation`: the Python function returns
either the annotation itself (a single class) or a list of classes. -/
inductive Resolved
  | single (t : PyType)
  | multi (ts : List PyType)
deriving DecidableEq, Repr

/-- `resolve_annotation` (tool_utils.py lines 35-42): a non-union annotation
is returned unchanged; for a union the `NoneType` members are filtered out
and a single survivor is returned alone, otherwise the survivors are returned
as a list. -/
def resolve_annotation (anno : Anno) : Resolved :=
  match anno with
  | Anno.plain t => Resolved.single t
  | Anno.union args =>
    let args := args.filter (fun arg => arg ≠ noneTypePy)
    match args with
    | [t] => Resolved.single t
    | ts => Resolved.multi ts

/-- A parameter default as `param_to_definition` inspects it: absent
(`inspect.Parameter.empty`), the literal `None`, an enum member (carrying its
class and its `.value`), or any other value (carrying its class and its
`str()` form). -/
inductive DefaultVal
  | empty
  | pyNone
  | enumMember (cls : PyType) (value : PyVal)
  | plain (cls : PyType) (strForm : String)

/-- The identity test `default_value is not inspect.Parameter.empty`,
as a Boolean on the modelled default. -/
def DefaultVal.isEmptyDefault : DefaultVal → Bool
  | DefaultVal.empty => true
  | DefaultVal.pyNone => false
  | DefaultVal.enumMember _ _ => false
  | DefaultVal.plain _ _ => false

/-- `value_to_str` (tool_utils.py lines 23-32): an absent default is skipped
(`None` in Python, modelled as `Option.none`), a `None` default dumps as the
empty string, an enum member dumps as its `.value`, anything else as its
`str()` form. -/
def value_to_str (val : DefaultVal) : Option PyVal :=
  match val with
  | DefaultVal.empty => Option.none
  | DefaultVal.pyNone => some (PyVal.pyStr "")
  | DefaultVal.enumMember _ v => some v
  | DefaultVal.plain _ s => some (PyVal.pyStr s)

/-- `default_value.__class__ if isinstance(default_value, Enum) else
type(default_value)` (tool_utils.py line 53). The `empty` case never reaches
this computation in the source. -/
def typeOfDefault (val : DefaultVal) : PyType :=
  match val with
  | DefaultVal.empty => emptyPy
  | DefaultVal.pyNone => noneTypePy
  | DefaultVal.enumMember cls _ => cls
  | DefaultVal.plain cls _ => cls

/-- The `inspect.Parameter.kind` vocabulary. -/
inductive ParamKind
  | POSITIONAL_ONLY
  | POSITIONAL_OR_KEYWORD
  | VAR_POSITIONAL
  | KEYWORD_ONLY
  | VAR_KEYWORD
deriving DecidableEq, Repr

/-- An `inspect.Parameter` as the module reads it: its kind, its annotation
(`anno` models `param.annotation`) and its default. -/
structure ParamModel where
  kind : ParamKind
  anno : Anno
  default : DefaultVal

/-- Modelled from the spec: the `InputDefinition` record of the contracts
module (not among the sources), holding the declared type tags, the
serialized default, an optional description, optional enum values and the
optional custom connection type names. -/
structure InputDefinition where
  type : List TypeTag
  default : Option PyVal
  description : Option String
  enum : Option (List String)
  custom_type : Option (List String)

/-- Lines 46-53 of `param_to_definition`: the value type is resolved from the
annotation, and when the annotation is absent but a default is present it is
inferred from the default instead. -/
def resolved_value_type (param : ParamModel) : Resolved :=
  let value_type := resolve_annotation param.anno
  if (param.default).isEmptyDefault = false ∧ value_type = Resolved.single emptyPy then
    Resolved.single (typeOfDefault param.default)
  else value_type

/-- One iteration of the candidate loop of `param_to_definition`
(tool_utils.py lines 73-85), over the state
(custom_connection_added, typ, custom_type_conn): a custom strong type
appends the generic "CustomConnection" marker once and always collects its
name; any other candidate appends its own name, except that a candidate
literally named "CustomConnection" is appended only if the marker is not
already present. -/
def connListStep (st : Bool × List TypeTag × List String) (t : PyType) :
    Bool × List TypeTag × List String :=
  if t.is_custom_strong then
    if st.1 = false then
      (true, st.2.1 ++ [TypeTag.conn "CustomConnection"], st.2.2 ++ [t.name])
    else
      (st.1, st.2.1, st.2.2 ++ [t.name])
  else if t.name ≠ "CustomConnection" then
    (st.1, st.2.1 ++ [TypeTag.conn t.name], st.2.2)
  else if st.1 = false then
    (true, st.2.1 ++ [TypeTag.conn t.name], st.2.2)
  else st

/-- `param_to_definition` (tool_utils.py lines 45-107), faithful to the
source: enum extraction re-types the parameter to `str`; a single
connection-capable class yields its own name (or the generic
"CustomConnection" marker for a custom strong type); a candidate list that is
not entirely connection-capable collapses to the object tag with the
connection flag left `false`; an entirely connection-capable list is folded
in order with the "CustomConnection" marker added at most once; any other
class goes through `ValueType.from_type`.  The custom-type list is suppressed
unless `gen_custom_type_conn` is set. -/
def param_to_definition (param : ParamModel) (gen_custom_type_conn : Bool) :
    InputDefinition × Bool :=
  let default_value := param.default
  let value_type := resolved_value_type param
  let enum : Option (List String) :=
    match value_type with
    | Resolved.single t => t.enum_members
    | Resolved.multi _ => Option.none
  let value_type :=
    match value_type with
    | Resolved.single t =>
      if (t.enum_members).isSome then Resolved.single strPy else Resolved.single t
    | v => v
  let classify : List TypeTag × Option (List String) × Bool :=
    match value_type with
    | Resolved.single t =>
      if t.is_connection then
        if t.is_custom_strong then
          ([TypeTag.conn "CustomConnection"], some [t.name], true)
        else
          ([TypeTag.conn t.name], Option.none, true)
      else
        ([TypeTag.value (ValueType.from_type t)], Option.none, false)
    | Resolved.multi ts =>
      if !(ts.all fun t => t.is_connection) then
        ([TypeTag.value ValueType.OBJECT], Option.none, false)
      else
        let st := ts.foldl connListStep
          ((false, [], []) : Bool × List TypeTag × List String)
        (st.2.1, some st.2.2, true)
  let custom_type_conn := if !gen_custom_type_conn then Option.none else classify.2.1
  (⟨classify.1, value_to_str default_value, Option.none, enum, custom_type_conn⟩,
    classify.2.2)

/-- The candidate-to-tag mapping the spec describes for an entirely
connection-capable candidate list: a custom strong type contributes the
generic "CustomConnection" marker, any other candidate its own name (for a
candidate literally named "CustomConnection" the two coincide). -/
def tagOfCandidate (t : PyType) : TypeTag :=
  if t.is_custom_strong then TypeTag.conn "CustomConnection" else TypeTag.conn t.name

/-- Drop every generic "CustomConnection" marker from a tag list. -/
def dropCC (l : List TypeTag) : List TypeTag :=
  l.filter (fun tag => tag ≠ TypeTag.conn "CustomConnection")

/-- Keep only the first generic "CustomConnection" marker of a tag list (the
spec: the marker is added only once). -/
def keepFirstCC : List TypeTag → List TypeTag
  | [] => []
  | tag :: l =>
    if tag = TypeTag.conn "CustomConnection" then tag :: dropCC l
    else tag :: keepFirstCC l

/-- Whether a tag list mentions the generic "CustomConnection" marker. -/
def hasCCTag : List TypeTag → Bool
  | [] => false
  | tag :: l => if tag = TypeTag.conn "CustomConnection" then true else hasCCTag l

/-- The names of the custom strong type candidates, in candidate order. -/
def customNames (ts : List PyType) : List String :=
  (ts.filter fun t => t.is_custom_strong).map (fun t => t.name)

/-- An enumeration class with two members. -/
def colorEnumPy : PyType := ⟨"Color", false, false, some ["red", "green"]⟩

/-- The parameter of the C1 counterexample: annotated
`Union[FakeConnection, int]`, a candidate list in which one member is
connection-capable and one is not. -/
def exMixedParam : ParamModel :=
  ⟨ParamKind.POSITIONAL_OR_KEYWORD, Anno.union [connPy, intPy], DefaultVal.empty⟩

/-- A parameter annotated `Union[MyCustomConn, FakeConnection]`, an entirely
connection-capable candidate list. -/
def exConnListParam : ParamModel :=
  ⟨ParamKind.POSITIONAL_OR_KEYWORD, Anno.union [customPy, connPy], DefaultVal.empty⟩

/-- A parameter annotated with an enumeration class. -/
def exEnumParam : ParamModel :=
  ⟨ParamKind.POSITIONAL_OR_KEYWORD, Anno.plain colorEnumPy, DefaultVal.empty⟩

/-- Python truthiness, as `if not response` evaluates it: `None`, `False`,
zero numbers (a float records only whether it is zero, the rest of its value
is never consulted by the module) and empty strings, lists and dicts are
falsy; any other modelled value, including every `pyObj` instance, is
truthy. -/
def pyTruthy : PyVal → Bool
  | PyVal.pyNone => false
  | PyVal.pyBool b => b
  | PyVal.pyInt n => n != 0
  | PyVal.pyFloat isZero => !isZero
  | PyVal.pyStr s => s != ""
  | PyVal.pyList xs => !xs.isEmpty
  | PyVal.pyDict es => !es.isEmpty
  | PyVal.pyObj _ => true

/-- `isinstance(v, str)`. -/
def isStrVal : PyVal → Bool
  | PyVal.pyStr _ => true
  | _ => false

/-- `isinstance(value, (str, int, float, list, Dict))` — note that a Python
boolean is an instance of `int` (`bool` is a subtype of `int` in the host
language), so a boolean value passes this check. -/
def isAllowedDynamicListValue : PyVal → Bool
  | PyVal.pyStr _ => true
  | PyVal.pyBool _ => true
  | PyVal.pyInt _ => true
  | PyVal.pyFloat _ => true
  | PyVal.pyList _ => true
  | PyVal.pyDict _ => true
  | PyVal.pyNone => false
  | PyVal.pyObj _ => false

/-- Modelled from the spec: a dict key `json.dumps` accepts (strings,
numbers, booleans and `None` are coerced to string keys; any other key
raises). -/
def isJsonKey : PyVal → Bool
  | PyVal.pyNone => true
  | PyVal.pyBool _ => true
  | PyVal.pyInt _ => true
  | PyVal.pyFloat _ => true
  | PyVal.pyStr _ => true
  | _ => false

mutual

/-- Modelled from the spec: `is_json_serializable` of the utils module (not
among the sources) — whether `json.dumps` succeeds on the value. -/
def is_json_serializable : PyVal → Bool
  | PyVal.pyNone => true
  | PyVal.pyBool _ => true
  | PyVal.pyInt _ => true
  | PyVal.pyFloat _ => true
  | PyVal.pyStr _ => true
  | PyVal.pyList xs => jsonList xs
  | PyVal.pyDict es => jsonEntries es
  | PyVal.pyObj _ => false

/-- JSON-serializability of every element of a list. -/
def jsonList : List PyVal → Bool
  | [] => true
  | v :: vs => is_json_serializable v && jsonList vs

/-- JSON-serializability of every entry of a dict (key admissible and value
serializable). -/
def jsonEntries : List (PyVal × PyVal) → Bool
  | [] => true
  | kv :: es => isJsonKey kv.1 && is_json_serializable kv.2 && jsonEntries es

end

/-- The membership test `"value" in item`: Python compares the string key
against each dict key with equality; only an equal `str` key can match. -/
def dictHasKey (entries : List (PyVal × PyVal)) (k : String) : Bool :=
  entries.any fun kv =>
    match kv.1 with
    | PyVal.pyStr s => s == k
    | _ => false

/-- The distinct `ListFunctionResponseError` raise sites of
`validate_dynamic_list_func_response_type` (tool_utils.py lines 219-236), in
source order.  The Python messages interpolate the offending value through
`str()`; the model records the raise site and its datum rather than
rendering message text. -/
inductive ListFunctionResponseError
  | emptyResponse
  | notAList
  | itemNotADict (item : PyVal)
  | missingValueKey (item : PyVal)
  | keyNotAString (key : PyVal)
  | valueNotJsonSerializable (value : PyVal)
  | valueTypeNotSupported (value : PyVal)

/-- The inner `for key, value in item.items()` loop (tool_utils.py lines
228-236): per entry, the key must be a string, the value JSON-serializable,
and the value an instance of the allowed tuple; the first violation
raises. -/
def validateItemEntries :
    List (PyVal × PyVal) → Except ListFunctionResponseError Unit
  | [] => Except.ok ()
  | (key, value) :: rest =>
    if isStrVal key = false then
      Except.error (ListFunctionResponseError.keyNotAString key)
    else if is_json_serializable value = false then
      Except.error (ListFunctionResponseError.valueNotJsonSerializable value)
    else if isAllowedDynamicListValue value = false then
      Except.error (ListFunctionResponseError.valueTypeNotSupported value)
    else validateItemEntries rest

/-- The per-item checks (tool_utils.py lines 224-236): the item must be a
dict, must have a "value" key, and every entry must pass the inner loop. -/
def validateItem (item : PyVal) : Except ListFunctionResponseError Unit :=
  match item with
  | PyVal.pyDict entries =>
    if dictHasKey entries "value" = false then
      Except.error (ListFunctionResponseError.missingValueKey item)
    else validateItemEntries entries
  | _ => Except.error (ListFunctionResponseError.itemNotADict item)

/-- The outer `for item in response` loop: the first violating item
raises. -/
def validateItems : List PyVal → Except ListFunctionResponseError Unit
  | [] => Except.ok ()
  | item :: rest =>
    match validateItem item with
    | Except.ok _ => validateItems rest
    | Except.error e => Except.error e

/-- `validate_dynamic_list_func_response_type` (tool_utils.py lines
209-236): an empty (falsy) response and a non-list response raise; otherwise
every item is validated in order.  The label `f` only feeds the message text
and is not consulted otherwise. -/
def validate_dynamic_list_func_response_type (response : PyVal) (f : String) :
    Except ListFunctionResponseError Unit :=
  if pyTruthy response = false then
    Except.error ListFunctionResponseError.emptyResponse
  else
    match response with
    | PyVal.pyList items => validateItems items
    | _ => Except.error ListFunctionResponseError.notAList

/-- The response contract, written from the C3 claim: an element violates it
when it is not a dict, lacks a "value" key, or one of its entries has a
non-string key, a non-JSON-serializable value, or a value whose type is
outside the allowed tuple (membership read through host-language
`isinstance`). -/
def itemViolates (item : PyVal) : Prop :=
  match item with
  | PyVal.pyDict entries =>
    dictHasKey entries "value" = false ∨
    ∃ kv ∈ entries,
      isStrVal kv.1 = false ∨
      is_json_serializable kv.2 = false ∨
      isAllowedDynamicListValue kv.2 = false
  | _ => True

/-- The response-level contract, written from the C3 claim: the response
violates it when it is falsy, not a list, or contains a violating item. -/
def responseViolatesContract (response : PyVal) : Prop :=
  pyTruthy response = false ∨
  match response with
  | PyVal.pyList items => ∃ item ∈ items, itemViolates item
  | _ => True

/-- Lookup in an insertion-ordered dict modelled as an association list. -/
def lookupKV {α : Type} : List (String × α) → String → Option α
  | [], _ => Option.none
  | kv :: rest, k => if kv.1 = k then some kv.2 else lookupKV rest k

/-- Python dict assignment `d[k] = v`: an existing key keeps its position and
receives the new value, a new key is appended at the end. -/
def dictInsert {α : Type} (d : List (String × α)) (k : String) (v : α) :
    List (String × α) :=
  if d.any (fun kv => kv.1 == k) then
    d.map (fun kv => if kv.1 = k then (k, v) else kv)
  else d ++ [(k, v)]

/-- Python `dict(a, **b)`: the entries of `a`, updated and extended by the
entries of `b` in order. -/
def dictUpdate {α : Type} (a b : List (String × α)) : List (String × α) :=
  b.foldl (fun d kv => dictInsert d kv.1 kv.2) a

/-- `append_workspace_triple_to_func_input_params` (tool_utils.py lines
239-264): when no declared parameter is a catch-all keyword parameter the
workspace triple is restricted to the declared parameter names, otherwise it
passes through whole; the (possibly filtered) triple is the merge base and
the user-supplied values are layered on top.  The source coalesces absent
(`None`) dicts to empty dicts first; the model takes the dicts directly, the
empty list standing for an absent dict. -/
def append_workspace_triple_to_func_input_params
    (func_sig_params : List (String × ParamKind))
    (func_input_params_dict : List (String × PyVal))
    (ws_triple_dict : List (String × PyVal)) : List (String × PyVal) :=
  let has_kwargs_param :=
    func_sig_params.any (fun p => p.2 == ParamKind.VAR_KEYWORD)
  let avail_ws_info_dict :=
    if has_kwargs_param = false then
      ws_triple_dict.filter (fun kv => func_sig_params.any (fun p => p.1 == kv.1))
    else ws_triple_dict
  dictUpdate avail_ws_info_dict func_input_params_dict

/-- The signature, user arguments and workspace triple of the C7 witness:
only `subscription_id` is declared, and the user has supplied a value for
it. -/
def exSig : List (String × ParamKind) :=
  [("subscription_id", ParamKind.POSITIONAL_OR_KEYWORD)]

/-- User-supplied arguments of the C7 witness. -/
def exUser : List (String × PyVal) :=
  [("subscription_id", PyVal.pyStr "user-sub")]

/-- Workspace triple of the C7 witness. -/
def exTriple : List (String × PyVal) :=
  [("subscription_id", PyVal.pyStr "ws-sub"),
   ("resource_group_name", PyVal.pyStr "rg"),
   ("workspace_name", PyVal.pyStr "ws")]

/-- The ASCII single-quote character as a one-character string, used to
render the quoted interpolations of the Python error messages. -/
def sq : String := String.mk [Char.ofNat 39]

/-- `sub` occurs contiguously inside `s` (substring containment on the
underlying character lists). -/
def containsSub (s sub : String) : Prop :=
  ∃ a b : List Char, s.data = a ++ sub.data ++ b

/-- A Python object as the function-path loader inspects it: whether
`callable` holds of it, and its display form used in messages. -/
structure PyObj where
  isCallable : Bool
  reprStr : String
deriving DecidableEq, Repr

/-- A loaded module: its attribute table. -/
structure PyModule where
  attrs : List (String × PyObj)
deriving DecidableEq, Repr

/-- The host import system, modelled as the table of importable modules. -/
structure PyEnv where
  modules : List (String × PyModule)
deriving DecidableEq, Repr

/-- `func_path.rsplit(".", 1)` unpacked into two names: split at the last
dot; `Option.none` when there is no dot, in which case the Python unpacking
raises `ValueError`. -/
def rsplitDot : List Char → Option (List Char × List Char)
  | [] => Option.none
  | c :: rest =>
    match rsplitDot rest with
    | some (m, f) => some (c :: m, f)
    | Option.none => if c = '.' then some ([], rest) else Option.none

/-- `importlib.import_module`, modelled as lookup in the host module table;
a missing module raises `ModuleNotFoundError`, whose text names the module
(host behavior, modelled). -/
def import_module (env : PyEnv) (name : String) : Except String PyModule :=
  match lookupKV env.modules name with
  | some m => Except.ok m
  | Option.none => Except.error ("No module named " ++ sq ++ name ++ sq)

/-- The body of the `try` block of `load_function_from_function_path`
(tool_utils.py lines 272-279): split the path at the last dot, import the
module, fetch the attribute, and require the result to be callable; every
failure surfaces as the text of the underlying Python exception (the
not-callable raise uses the `FunctionPathValidationError` message from line
279). -/
def load_function_inner (env : PyEnv) (func_path : String) :
    Except String PyObj :=
  match rsplitDot func_path.data with
  | Option.none =>
    Except.error "not enough values to unpack (expected 2, got 1)"
  | some (mchars, fchars) =>
    let module_name := String.mk mchars
    let func_name := String.mk fchars
    match import_module env module_name with
    | Except.error e => Except.error e
    | Except.ok m =>
      match lookupKV m.attrs func_name with
      | Option.none =>
        Except.error ("module " ++ sq ++ module_name ++ sq ++
          " has no attribute " ++ sq ++ func_name ++ sq)
      | some f =>
        if f.isCallable then Except.ok f
        else Except.error (sq ++ f.reprStr ++ sq ++ " is not callable.")

/-- The fixed expected-format hint of the wrap-around message (the doubled
"format" is verbatim from the source). -/
def functionPathHint : String :=
  "Expected format: format " ++ sq ++ "my_module.my_func" ++ sq ++ "."

/-- `load_function_from_function_path` (tool_utils.py lines 267-284): any
exception escaping the `try` body — including the not-callable
`FunctionPathValidationError`, which the `except Exception` clause catches
as well — is re-wrapped into a `FunctionPathValidationError` whose message
carries the original path, the fixed format hint, and the underlying error
text. -/
def load_function_from_function_path (env : PyEnv) (func_path : String) :
    Except String PyObj :=
  match load_function_inner env func_path with
  | Except.ok f => Except.ok f
  | Except.error e =>
    Except.error ("Failed to parse function from function path: " ++ sq ++
      func_path ++ sq ++ ". " ++ functionPathHint ++ " Detailed error: " ++ e)

/-- The module table of the C6 witness: a module `os` with a callable
`join` and a non-callable attribute `sep`. -/
def exEnv : PyEnv :=
  ⟨[("os", ⟨[("join", ⟨true, "builtin function join"⟩),
             ("sep", ⟨false, "/"⟩)]⟩)]⟩

/-- Python `str.replace` on character lists: replace ALL non-overlapping
occurrences, scanning left to right, the replaced segment not rescanned.
The list length serves as structural fuel so the definition reduces in the
kernel; the pattern is never empty at the call sites (it always starts with
a dot). -/
def pyReplaceAux (pat r : List Char) : Nat → List Char → List Char
  | _, [] => []
  | 0, s => s
  | fuel + 1, c :: rest =>
    if pat ≠ [] ∧ pat.isPrefixOf (c :: rest) then
      r ++ pyReplaceAux pat r fuel ((c :: rest).drop pat.length)
    else c :: pyReplaceAux pat r fuel rest

/-- `s.replace(pat, r)`. -/
def pyReplace (s pat r : List Char) : List Char :=
  pyReplaceAux pat r s.length s

/-- The attributes of a Python callable consulted by the tool-definition
builder: `__qualname__`, `__name__`, `__module__`, the docstring
(`inspect.getdoc`), and the signature parameters in declaration order. -/
structure FuncMeta where
  qualname : String
  name : String
  module : String
  doc : Option String
  params : List (String × ParamModel)

/-- `function_to_interface` (tool_utils.py lines 110-135): when the
initializer inputs are present (truthy), a (truthy) name they share with the
signature raises the duplicate-inputs exception; otherwise the signature
parameters — minus `self` and the variadic kinds — are layered over the
initializer inputs, and each resulting parameter is resolved through
`param_to_definition`, collecting the type lists of connection-typed
inputs. -/
def function_to_interface (f : FuncMeta)
    (init_inputs : Option (List (String × ParamModel)))
    (gen_custom_type_conn : Bool) :
    Except String ((List (String × InputDefinition)) ×
      (List (String × InputDefinition)) × List (List TypeTag)) :=
  let sig := f.params
  let start : Except String (List (String × ParamModel)) :=
    match init_inputs with
    | Option.none => Except.ok []
    | some ii =>
      if ii.isEmpty then Except.ok []
      else if ii.any (fun kv => (sig.any fun p => p.1 == kv.1) && (kv.1 != ""))
      then
        Except.error ("Duplicate inputs found from " ++ sq ++ f.name ++ sq ++
          " and \"__init__()\"!")
      else Except.ok ii
  match start with
  | Except.error e => Except.error e
  | Except.ok ii =>
    let all_inputs := dictUpdate ii
      (sig.filter fun p => p.1 != "self" &&
        p.2.kind != ParamKind.VAR_KEYWORD &&
        p.2.kind != ParamKind.VAR_POSITIONAL)
    let defs := all_inputs.map
      (fun p => (p.1, (param_to_definition p.2 gen_custom_type_conn).1))
    let conn := (all_inputs.filter fun p =>
      (param_to_definition p.2 gen_custom_type_conn).2).map
      (fun p => ((param_to_definition p.2 gen_custom_type_conn).1).type)
    Except.ok (defs, [], conn)

/-- Modelled from the spec: the Tool record of the contracts module (not
among the sources). -/
structure Tool where
  type : Option String
  module : String
  name : String
  description : Option String
  inputs : List (String × InputDefinition)
  outputs : List (String × InputDefinition)
  class_name : Option String
  function : String
  is_builtin : Bool
  stage : String

/-- `function_to_tool_definition` (tool_utils.py lines 138-162): unwrap a
decorated callable once (`__original_function`, modelled as an optional
companion), build the interface, derive the class name by deleting every
occurrence of "." + `__name__` from `__qualname__` when a dot is present
(Python `str.replace` replaces all occurrences), take the docstring unless
it is absent or empty (`inspect.getdoc(f) or None`), and assemble the tool
with the builtin flag set and the fixed "test" stage tag. -/
def function_to_tool_definition (f0 : FuncMeta) (original : Option FuncMeta)
    (type : Option String) (init_inputs : Option (List (String × ParamModel))) :
    Except String Tool :=
  let f := match original with
    | some g => g
    | Option.none => f0
  match function_to_interface f init_inputs false with
  | Except.error e => Except.error e
  | Except.ok (inputs, outputs, _) =>
    let class_name : Option String :=
      if '.' ∈ f.qualname.data then
        some (String.mk (pyReplace f.qualname.data ('.' :: f.name.data) []))
      else Option.none
    let description : Option String :=
      match f.doc with
      | some d => if d = "" then Option.none else some d
      | Option.none => Option.none
    Except.ok ⟨type, f.module, f.qualname, description, inputs, outputs,
      class_name, f.name, true, "test"⟩

/-- The C8 counterexample callable: a method `foo` of a class `foo` nested
in a class `A`, so `__qualname__ = "A.foo.foo"` and `__name__ = "foo"`. -/
def exNestedFoo : FuncMeta :=
  ⟨"A.foo.foo", "foo", "mymod", Option.none, []⟩

/-- The C8 witness callable: an ordinary method `bar` of a class
`MyTool`. -/
def exMethodBar : FuncMeta :=
  ⟨"MyTool.bar", "bar", "mymod", Option.none, []⟩

/-- The opening brace character (written via its code point so that brace
characters appear nowhere as literals). -/
def lb : Char := Char.ofNat 123

/-- The closing brace character. -/
def rb : Char := Char.ofNat 125

/-- The whitespace class of the regex and of Python `str.strip` (ASCII
model). -/
def isWs (c : Char) : Bool :=
  c == ' ' || c == '\t' || c == '\n' || c == '\r' ||
    c == Char.ofNat 11 || c == Char.ofNat 12

/-- Python `s.strip()` on a character list: drop whitespace from both
ends. -/
def pyStrip (s : List Char) : List Char :=
  ((s.dropWhile isWs).reverse.dropWhile isWs).reverse

/-- First character of an identifier (ASCII model of the template
engine's name token). -/
def isIdentStart (c : Char) : Bool := c.isAlpha || c == '_'

/-- Later characters of an identifier. -/
def isIdentChar (c : Char) : Bool := c.isAlphanum || c == '_'

/-- The name denoted by the content of a variable block: optional
whitespace around a single identifier; `Option.none` for anything else
(which the real template parser rejects with a syntax error). -/
def identOf (content : List Char) : Option (List Char) :=
  match pyStrip content with
  | [] => Option.none
  | c :: rest =>
    if isIdentStart c && rest.all isIdentChar then some (c :: rest)
    else Option.none

/-- Scanner modes of the template model: in literal text, just after a
single opening brace in text, inside a variable block (accumulating the
content reversed), or just after a single closing brace inside a block. -/
inductive SMode
  | text
  | sawOpen
  | inVar (acc : List Char)
  | sawClose (acc : List Char)

/-- Modelled from the spec: the template engine parse plus
`meta.find_undeclared_variables` (jinja2 is an external library), for the
sub-language of templates made of literal text and double-brace variable
blocks holding a single identifier.  The scan emits the referenced names in
textual order (with duplicates); a malformed block yields `Option.none`,
standing for the syntax error the real parser raises.  Statement blocks and
expressions other than plain names are outside the modelled
sub-language. -/
def scanVars (m : SMode) : List Char → Option (List String)
  | [] =>
    match m with
    | SMode.text => some []
    | SMode.sawOpen => some []
    | SMode.inVar _ => Option.none
    | SMode.sawClose _ => Option.none
  | c :: rest =>
    match m with
    | SMode.text =>
      if c = lb then scanVars SMode.sawOpen rest
      else scanVars SMode.text rest
    | SMode.sawOpen =>
      if c = lb then scanVars (SMode.inVar []) rest
      else scanVars SMode.text rest
    | SMode.inVar acc =>
      if c = rb then scanVars (SMode.sawClose acc) rest
      else scanVars (SMode.inVar (c :: acc)) rest
    | SMode.sawClose acc =>
      if c = rb then
        match identOf acc.reverse with
        | some name => (scanVars SMode.text rest).map (fun vs => String.mk name :: vs)
        | Option.none => Option.none
      else scanVars (SMode.inVar (c :: rb :: acc)) rest

/-- Keep the first occurrence of each name (the set view of the scan, with
the scan order as the model's set-iteration order). -/
def dedupFirstAux (seen : List String) : List String → List String
  | [] => []
  | x :: xs =>
    if x ∈ seen then dedupFirstAux seen xs
    else x :: dedupFirstAux (x :: seen) xs

/-- First-occurrence deduplication. -/
def dedupFirst (l : List String) : List String := dedupFirstAux [] l

/-- `meta.find_undeclared_variables(env.parse(template_str))` of the
model. -/
def find_undeclared_variables (s : List Char) : Option (List String) :=
  (scanVars SMode.text s).map dedupFirst

/-- First index at which `pat` occurs in `s`, if any. -/
def findSub : List Char → List Char → Option Nat
  | [], pat => if pat.isEmpty then some 0 else Option.none
  | c :: rest, pat =>
    if pat.isPrefixOf (c :: rest) then some 0
    else (findSub rest pat).map (fun n => n + 1)

/-- Python `s.find(pat)`: the first index, or -1 when absent. -/
def strFind (s pat : List Char) : Int :=
  match findSub s pat with
  | some n => (n : Int)
  | Option.none => -1

/-- Stable insertion into a key-sorted list: the new element goes after
every element whose key does not exceed its own (Python `sorted` is
stable). -/
def insortByKey (key : String → Int) (x : String) : List String → List String
  | [] => [x]
  | y :: ys => if key y ≤ key x then y :: insortByKey key x ys else x :: y :: ys

/-- Stable sort by key (insertion sort, processing left to right). -/
def sortByKey (key : String → Int) (l : List String) : List String :=
  l.foldl (fun acc x => insortByKey key x acc) []

/-- Consume one expected character. -/
def expectChar (c : Char) : List Char → Option (List Char)
  | [] => Option.none
  | d :: rest => if d = c then some rest else Option.none

/-- One attempt of the image micro-syntax regex (tool_utils.py line 194) at
the head of `s`: bang, bracket, group one (whitespace, the word image,
whitespace), closing bracket, opening paren, two opening braces, whitespace
then group two (a nonempty brace-free run, with the backtracking of the
greedy inner groups resolved: group two is the run minus its whitespace
prefix, except that when the run is all whitespace group two keeps only its
last character), two closing braces, closing paren.  Returns group one,
group two and the remainder after the match. -/
def matchImageAt (s : List Char) : Option (List Char × List Char × List Char) :=
  match expectChar '!' s with
  | Option.none => Option.none
  | some s1 =>
    match expectChar '[' s1 with
    | Option.none => Option.none
    | some s2 =>
      let w1 := s2.takeWhile isWs
      let s3 := s2.dropWhile isWs
      if ("image".data).isPrefixOf s3 then
        let s4 := s3.drop 5
        let w2 := s4.takeWhile isWs
        let s5 := s4.dropWhile isWs
        match expectChar ']' s5 with
        | Option.none => Option.none
        | some s6 =>
          match expectChar '(' s6 with
          | Option.none => Option.none
          | some s7 =>
            match expectChar lb s7 with
            | Option.none => Option.none
            | some s8 =>
              match expectChar lb s8 with
              | Option.none => Option.none
              | some s9 =>
                let run := s9.takeWhile (fun c => !(c == lb) && !(c == rb))
                let s10 := s9.dropWhile (fun c => !(c == lb) && !(c == rb))
                if run.isEmpty then Option.none
                else
                  match expectChar rb s10 with
                  | Option.none => Option.none
                  | some s11 =>
                    match expectChar rb s11 with
                    | Option.none => Option.none
                    | some s12 =>
                      match expectChar ')' s12 with
                      | Option.none => Option.none
                      | some s13 =>
                        some (w1 ++ ("image".data ++ w2),
                          run.drop
                            (min (run.takeWhile isWs).length (run.length - 1)),
                          s13)
      else Option.none

/-- `re.finditer` of the image pattern over the raw template: scan left to
right, emit each match and resume after it (non-overlapping); the template
length is structural fuel (every step consumes at least one character). -/
def findImageMatchesAux : Nat → List Char → List (List Char × List Char)
  | 0, _ => []
  | _ + 1, [] => []
  | fuel + 1, c :: rest =>
    match matchImageAt (c :: rest) with
    | some (g1, g2, rest2) => (g1, g2) :: findImageMatchesAux fuel rest2
    | Option.none => findImageMatchesAux fuel rest

/-- All image-pattern matches of the template, in textual order. -/
def findImageMatches (s : List Char) : List (List Char × List Char) :=
  findImageMatchesAux s.length s

/-- Modelled from the spec: the `ValueType` member-value lookup
`ValueType(x)`; the image pattern always supplies "image" after trimming
(an unknown value raises in Python, unreachable from this module). -/
def valueTypeOfStr (s : List Char) : ValueType :=
  if s = "image".data then ValueType.IMAGE
  else if s = "string".data then ValueType.STRING
  else ValueType.OBJECT

/-- `InputDefinition(type=[ValueType.STRING])`. -/
def stringInputDef : InputDefinition :=
  ⟨[TypeTag.value ValueType.STRING], Option.none, Option.none, Option.none,
   Option.none⟩

/-- `InputDefinition([ValueType.IMAGE])`. -/
def imageInputDef : InputDefinition :=
  ⟨[TypeTag.value ValueType.IMAGE], Option.none, Option.none, Option.none,
   Option.none⟩

/-- `get_inputs_for_prompt_template` (tool_utils.py lines 165-201): parse
the template, collect its undeclared variables sorted by
`template_str.find`, type them all as string inputs, then scan the raw
template for image micro-syntax matches and assign (override or add) the
captured, stripped token an image-typed input definition.  `Option.none`
stands for the parse error the template engine raises. -/
def get_inputs_for_prompt_template (template_str : List Char) :
    Option (List (String × InputDefinition)) :=
  match find_undeclared_variables template_str with
  | Option.none => Option.none
  | some vars =>
    let inputs := sortByKey (fun x => strFind template_str x.data) vars
    let result_dict := inputs.map (fun i => (i, stringInputDef))
    some ((findImageMatches template_str).foldl
      (fun d g => dictInsert d (String.mk (pyStrip g.2))
        ⟨[TypeTag.value (valueTypeOfStr (pyStrip g.1))], Option.none,
         Option.none, Option.none, Option.none⟩)
      result_dict)

/-- The template of the worked example in the spec and the docstring
(braces written via escapes). -/
def exTemplate : List Char :=
  ("Prompt with image input ![image](\x7b\x7bimage_input\x7d\x7d) and string input \x7b\x7bstr_input\x7d\x7d").data

/-! ### End of definitions -/

/-- C4: a non-union annotation is returned unchanged; removing the none
member of a union is invisible to the result; `Optional` of a type yields
that type exactly; a two-member union of non-none members yields the ordered
pair as a list. -/
theorem c4_resolve_annotation_contract :
    (∀ t : PyType, resolve_annotation (Anno.plain t) = Resolved.single t) ∧
    (∀ args : List PyType,
      resolve_annotation (Anno.union (args.filter (fun a => a ≠ noneTypePy))) =
        resolve_annotation (Anno.union args)) ∧
    (∀ t : PyType, t ≠ noneTypePy →
      resolve_annotation (Anno.union [t, noneTypePy]) = Resolved.single t) ∧
    (∀ a b : PyType, a ≠ noneTypePy → b ≠ noneTypePy →
      resolve_annotation (Anno.union [a, b]) = Resolved.multi [a, b]) := by
  refine ⟨fun t => rfl, fun args => ?_, fun t ht => ?_, fun a b ha hb => ?_⟩
  · simp [ resolve_annotation, List.filter_filter]
  · simp [ resolve_annotation, ht]
  · simp [ resolve_annotation, ha, hb]

/-- C4 witness: `Optional[int]` resolves to `int` exactly, and
`Union[FakeConnection, int]` resolves to the ordered list of both members. -/
theorem c4_resolve_annotation_contract_witness :
    resolve_annotation (Anno.union [intPy, noneTypePy]) = Resolved.single intPy ∧
    resolve_annotation (Anno.union [connPy, intPy]) = Resolved.multi [connPy, intPy] :=
  ⟨c4_resolve_annotation_contract.2.2.1 intPy (by decide),
   c4_resolve_annotation_contract.2.2.2 connPy intPy (by decide) (by decide)⟩

/-- The candidate loop, started with the marker already added, appends
exactly the non-marker tags and collects every custom name. -/
theorem connListStep_foldl_true (ts : List PyType) :
    ∀ ty cu, ts.foldl connListStep (true, ty, cu) =
      (true, ty ++ dropCC (ts.map tagOfCandidate), cu ++ customNames ts) := by
  induction ts with
  | nil => intro ty cu; simp [dropCC, customNames]
  | cons t ts ih =>
    intro ty cu
    simp only [List.foldl_cons, List.map_cons]
    by_cases hc : t.is_custom_strong
    · rw [show connListStep (true, ty, cu) t = (true, ty, cu ++ [t.name]) from by
        simp [connListStep, hc]]
      rw [ih]
      simp [dropCC, customNames, tagOfCandidate, hc, List.filter_cons]
    · by_cases hn : t.name = "CustomConnection"
      · rw [show connListStep (true, ty, cu) t = (true, ty, cu) from by
          simp [connListStep, hc, hn]]
        rw [ih]
        simp [dropCC, customNames, tagOfCandidate, hc, hn, List.filter_cons]
      · rw [show connListStep (true, ty, cu) t = (true, ty ++ [TypeTag.conn t.name], cu) from by
          simp [connListStep, hc, hn]]
        rw [ih]
        simp [dropCC, customNames, tagOfCandidate, hc, hn, List.filter_cons]

/-- The candidate loop, started from the initial state, builds exactly the
spec-side tag list: candidate tags in order with the "CustomConnection"
marker kept only at its first occurrence, plus every custom name. -/
theorem connListStep_foldl_false (ts : List PyType) :
    ∀ ty cu, ts.foldl connListStep (false, ty, cu) =
      (hasCCTag (ts.map tagOfCandidate),
        ty ++ keepFirstCC (ts.map tagOfCandidate), cu ++ customNames ts) := by
  induction ts with
  | nil => intro ty cu; simp [hasCCTag, keepFirstCC, customNames]
  | cons t ts ih =>
    intro ty cu
    simp only [List.foldl_cons, List.map_cons]
    by_cases hc : t.is_custom_strong
    · rw [show connListStep (false, ty, cu) t =
          (true, ty ++ [TypeTag.conn "CustomConnection"], cu ++ [t.name]) from by
        simp [connListStep, hc]]
      rw [connListStep_foldl_true]
      simp [hasCCTag, keepFirstCC, customNames, tagOfCandidate, hc, List.filter_cons]
    · by_cases hn : t.name = "CustomConnection"
      · rw [show connListStep (false, ty, cu) t =
            (true, ty ++ [TypeTag.conn t.name], cu) from by
          simp [connListStep, hc, hn]]
        rw [connListStep_foldl_true]
        simp [hasCCTag, keepFirstCC, customNames, tagOfCandidate, hc, hn, List.filter_cons]
      · rw [show connListStep (false, ty, cu) t =
            (false, ty ++ [TypeTag.conn t.name], cu) from by
          simp [connListStep, hc, hn]]
        rw [ih]
        have htag : TypeTag.conn t.name ≠ TypeTag.conn "CustomConnection" := by
          simp [hn]
        simp [hasCCTag, keepFirstCC, customNames, tagOfCandidate, hc, hn, htag,
          List.filter_cons]

/-- C1 counterexample: the parameter annotated `Union[FakeConnection, int]`
resolves to a candidate list containing a connection-capable member, yet
`param_to_definition` collapses its type tags to the single generic object
tag and leaves the connection flag unset — the claim predicts the
"otherwise" branch (per-candidate tags and a set connection flag) as soon as
one candidate is connection-capable. -/
theorem c1_counterexample :
    resolve_annotation (exMixedParam.anno) = Resolved.multi [connPy, intPy] ∧
    connPy.is_connection = true ∧
    param_to_definition exMixedParam false =
      (⟨[TypeTag.value ValueType.OBJECT], Option.none, Option.none, Option.none,
        Option.none⟩, false) :=
  ⟨rfl, rfl, rfl⟩

/-- C1 amended: when the resolved annotation is a candidate list, the type
tags collapse to the single generic object tag — with the connection flag
left unset — exactly when NOT ALL candidates are connection-capable;
otherwise the tag list is built by iterating the candidates in order (each
custom strong type contributing the generic "CustomConnection" marker, every
other candidate its own name, the marker kept only at its first occurrence),
the custom-type list collects the custom candidates names (when requested),
and the parameter is marked connection-typed. -/
theorem c1_amended (p : ParamModel) (g : Bool) (ts : List PyType)
    (h : resolved_value_type p = Resolved.multi ts) :
    if ts.all (fun t => t.is_connection) then
      ((param_to_definition p g).1).type = keepFirstCC (ts.map tagOfCandidate) ∧
      ((param_to_definition p g).1).custom_type =
        (if g then some (customNames ts) else Option.none) ∧
      (param_to_definition p g).2 = true
    else
      ((param_to_definition p g).1).type = [TypeTag.value ValueType.OBJECT] ∧
      ((param_to_definition p g).1).custom_type = Option.none ∧
      (param_to_definition p g).2 = false := by
  by_cases hall : ts.all (fun t => t.is_connection)
  · rw [if_pos hall]
    simp only [param_to_definition, h, hall, Bool.not_true, Bool.false_eq_true,
      if_false, connListStep_foldl_false, List.nil_append]
    cases g <;> simp
  · rw [if_neg hall]
    have hall' : (ts.all fun t => t.is_connection) = false := by
      revert hall; cases ts.all fun t => t.is_connection <;> simp
    simp only [param_to_definition, h, hall', Bool.not_false, if_true]
    cases g <;> simp

/-- C1 witness: on `Union[MyCustomConn, FakeConnection]` with custom-type
generation requested, the amended description yields the marker followed by
the plain connection name, the custom name list, and a set connection
flag. -/
theorem c1_amended_witness :
    ((param_to_definition exConnListParam true).1).type =
      [TypeTag.conn "CustomConnection", TypeTag.conn "FakeConnection"] ∧
    ((param_to_definition exConnListParam true).1).custom_type =
      some ["MyCustomConn"] ∧
    (param_to_definition exConnListParam true).2 = true := by
  have h := c1_amended exConnListParam true [customPy, connPy] rfl
  simpa [keepFirstCC, dropCC, tagOfCandidate, customNames, customPy, connPy]
    using h

/-- C9: an input definition never carries a non-absent enum list together
with a set connection flag; moreover, when the resolved type is an
enumeration class, the enum field records its ordered stringified members,
the declared type tag becomes the generic string type, and the parameter is
not classified as a connection. -/
theorem c9_enum_and_connection_exclusive :
    (∀ p g, ((param_to_definition p g).1).enum = Option.none ∨
      (param_to_definition p g).2 = false) ∧
    (∀ p g t ms, resolved_value_type p = Resolved.single t →
      t.enum_members = some ms →
      ((param_to_definition p g).1).enum = some ms ∧
      ((param_to_definition p g).1).type = [TypeTag.value ValueType.STRING] ∧
      (param_to_definition p g).2 = false) := by
  constructor
  · intro p g
    rcases hrv : resolved_value_type p with t | ts
    · rcases ht : t.enum_members with _ | ms
      · left
        simp [param_to_definition, hrv, ht]
      · right
        simp [param_to_definition, hrv, ht, strPy, ValueType.from_type]
    · left
      simp [param_to_definition, hrv]
  · intro p g t ms hrv ht
    simp [param_to_definition, hrv, ht, strPy, ValueType.from_type]

/-- C9 witness: a parameter annotated with a two-member enumeration class
gets the stringified member list, the string type tag, and no connection
flag. -/
theorem c9_witness :
    ((param_to_definition exEnumParam false).1).enum = some ["red", "green"] ∧
    ((param_to_definition exEnumParam false).1).type =
      [TypeTag.value ValueType.STRING] ∧
    (param_to_definition exEnumParam false).2 = false :=
  c9_enum_and_connection_exclusive.2 exEnumParam false colorEnumPy
    ["red", "green"] rfl rfl

/-- The inner entry loop raises exactly when some entry has a non-string
key, a non-JSON-serializable value, or a value of a disallowed type. -/
theorem validateItemEntries_error_iff (es : List (PyVal × PyVal)) :
    (∃ e, validateItemEntries es = Except.error e) ↔
      ∃ kv ∈ es, isStrVal kv.1 = false ∨ is_json_serializable kv.2 = false ∨
        isAllowedDynamicListValue kv.2 = false := by
  induction es with
  | nil => simp [validateItemEntries]
  | cons kv rest ih =>
    obtain ⟨key, value⟩ := kv
    by_cases h1 : isStrVal key = false
    · simp [validateItemEntries, h1]
    · by_cases h2 : is_json_serializable value = false
      · simp [validateItemEntries, h1, h2]
      · by_cases h3 : isAllowedDynamicListValue value = false
        · simp [validateItemEntries, h1, h2, h3]
        · simp [validateItemEntries, h1, h2, h3, ih]

/-- The per-item checks raise exactly when the item violates the element
contract. -/
theorem validateItem_error_iff (item : PyVal) :
    (∃ e, validateItem item = Except.error e) ↔ itemViolates item := by
  cases item with
  | pyDict entries =>
    cases hd : dictHasKey entries "value" with
    | false => simp [validateItem, itemViolates, hd]
    | true => simp [validateItem, itemViolates, hd, validateItemEntries_error_iff]
  | pyNone => simp [validateItem, itemViolates]
  | pyBool b => simp [validateItem, itemViolates]
  | pyInt n => simp [validateItem, itemViolates]
  | pyFloat z => simp [validateItem, itemViolates]
  | pyStr s => simp [validateItem, itemViolates]
  | pyList xs => simp [validateItem, itemViolates]
  | pyObj c => simp [validateItem, itemViolates]

/-- The outer item loop raises exactly when some item violates the element
contract. -/
theorem validateItems_error_iff (items : List PyVal) :
    (∃ e, validateItems items = Except.error e) ↔
      ∃ item ∈ items, itemViolates item := by
  induction items with
  | nil => simp [validateItems]
  | cons item rest ih =>
    cases hv : validateItem item with
    | ok u =>
      have hnv : ¬ itemViolates item := by
        rw [← validateItem_error_iff, hv]; simp
      simp [validateItems, hv, ih, hnv]
    | error e =>
      have hv' : itemViolates item := by
        rw [← validateItem_error_iff]; exact ⟨e, hv⟩
      simp [validateItems, hv, hv']

/-- C3: the validator raises a response-shape error exactly when the
response violates the contract (falsy response, non-list response, or an
element that is not a dict, lacks a "value" key, or has a non-string key, a
non-JSON-serializable value, or a value whose type is outside the allowed
tuple — type membership read through host-language `isinstance`, under which
booleans count as integers); the conforming response `[{"value": 1}]`
returns without raising. -/
theorem c3_validator_error_iff_contract :
    (∀ response f,
      (∃ e, validate_dynamic_list_func_response_type response f =
        Except.error e) ↔ responseViolatesContract response) ∧
    validate_dynamic_list_func_response_type
      (PyVal.pyList [PyVal.pyDict [(PyVal.pyStr "value", PyVal.pyInt 1)]]) "f" =
      Except.ok () := by
  constructor
  · intro response f
    by_cases ht : pyTruthy response = false
    · simp [validate_dynamic_list_func_response_type, responseViolatesContract, ht]
    · cases response <;>
        simp [validate_dynamic_list_func_response_type, responseViolatesContract,
          ht, validateItems_error_iff]
  · simp [validate_dynamic_list_func_response_type, validateItems, validateItem,
      validateItemEntries, dictHasKey, pyTruthy, isStrVal,
      isAllowedDynamicListValue, is_json_serializable]

/-- C10: a boolean "value" entry passes the allowed-type restriction (the
host language treats `bool` as a subtype of `int`), is JSON-serializable,
and the response `[{"value": b}]` validates without raising for either
boolean. -/
theorem c10_boolean_value_passes (b : Bool) :
    isAllowedDynamicListValue (PyVal.pyBool b) = true ∧
    is_json_serializable (PyVal.pyBool b) = true ∧
    validate_dynamic_list_func_response_type
      (PyVal.pyList [PyVal.pyDict [(PyVal.pyStr "value", PyVal.pyBool b)]]) "f" =
      Except.ok () := by
  refine ⟨rfl, by simp [is_json_serializable], ?_⟩
  simp [validate_dynamic_list_func_response_type, validateItems, validateItem,
    validateItemEntries, dictHasKey, pyTruthy, isStrVal,
    isAllowedDynamicListValue, is_json_serializable]

/-- Inserting a key makes lookup of that key return the inserted value. -/
theorem lookupKV_dictInsert_self {α : Type} (d : List (String × α)) (k : String)
    (v : α) : lookupKV (dictInsert d k v) k = some v := by
  unfold dictInsert
  by_cases h : d.any (fun kv => kv.1 == k)
  · rw [if_pos h]
    induction d with
    | nil => simp at h
    | cons kv rest ih =>
      by_cases hk : kv.1 = k
      · simp [lookupKV, hk]
      · have h' : rest.any (fun kv => kv.1 == k) := by
          simp only [List.any_cons] at h
          rcases Bool.or_eq_true_iff.mp h with h0 | h0
          · exact absurd (by simpa using h0) hk
          · exact h0
        simp [lookupKV, hk, ih h']
  · rw [if_neg h]
    induction d with
    | nil => simp [lookupKV]
    | cons kv rest ih =>
      simp only [List.any_cons, Bool.or_eq_true_iff, not_or] at h
      have hk : ¬ kv.1 = k := by simpa using h.1
      simpa [lookupKV, hk] using ih (by simpa using h.2)

/-- Replacing the value at one key is invisible to lookups of other keys. -/
theorem lookupKV_map_replace {α : Type} (d : List (String × α))
    (k k' : String) (v : α) (hne : k' ≠ k) :
    lookupKV (d.map (fun kv => if kv.1 = k then (k, v) else kv)) k' =
      lookupKV d k' := by
  induction d with
  | nil => rfl
  | cons kv rest ih =>
    by_cases hk : kv.1 = k
    · have hkk' : ¬ (k = k') := fun hx => hne hx.symm
      have hkv : ¬ (kv.1 = k') := fun hx => hne (hx.symm.trans hk)
      simp [lookupKV, hk, hkk', hkv, ih]
    · by_cases hk' : kv.1 = k'
      · simp [lookupKV, hk, hk', hne]
      · simp [lookupKV, hk, hk', ih]

/-- Appending an entry for one key is invisible to lookups of other keys. -/
theorem lookupKV_append_single {α : Type} (d : List (String × α))
    (k k' : String) (v : α) (hne : k' ≠ k) :
    lookupKV (d ++ [(k, v)]) k' = lookupKV d k' := by
  induction d with
  | nil =>
    have hkk' : ¬ (k = k') := fun hx => hne hx.symm
    simp [lookupKV, hkk']
  | cons kv rest ih =>
    by_cases hk' : kv.1 = k'
    · simp [lookupKV, hk']
    · simp [lookupKV, hk', ih]

/-- Inserting a key leaves lookup of any other key unchanged. -/
theorem lookupKV_dictInsert_other {α : Type} (d : List (String × α))
    (k k' : String) (v : α) (hne : k' ≠ k) :
    lookupKV (dictInsert d k v) k' = lookupKV d k' := by
  unfold dictInsert
  by_cases h : d.any (fun kv => kv.1 == k)
  · rw [if_pos h]
    exact lookupKV_map_replace d k k' v hne
  · rw [if_neg h]
    exact lookupKV_append_single d k k' v hne

/-- Updating with a dict not mentioning a key leaves its lookup unchanged. -/
theorem lookupKV_dictUpdate_notMem {α : Type} (b a : List (String × α))
    (k : String) (hk : k ∉ b.map Prod.fst) :
    lookupKV (dictUpdate a b) k = lookupKV a k := by
  induction b generalizing a with
  | nil => rfl
  | cons kv rest ih =>
    simp only [List.map_cons, List.mem_cons, not_or] at hk
    unfold dictUpdate
    simp only [List.foldl_cons]
    rw [show (rest.foldl (fun d kv => dictInsert d kv.1 kv.2)
        (dictInsert a kv.1 kv.2)) = dictUpdate (dictInsert a kv.1 kv.2) rest
      from rfl]
    rw [ih (dictInsert a kv.1 kv.2) hk.2,
      lookupKV_dictInsert_other a kv.1 k kv.2 hk.1]

/-- Updating with a duplicate-free dict containing a key makes its lookup
return that dict's value for the key. -/
theorem lookupKV_dictUpdate_mem {α : Type} (b a : List (String × α))
    (k : String) (hnd : (b.map Prod.fst).Nodup) (hk : k ∈ b.map Prod.fst) :
    lookupKV (dictUpdate a b) k = lookupKV b k := by
  induction b generalizing a with
  | nil => simp at hk
  | cons kv rest ih =>
    simp only [List.map_cons, List.nodup_cons] at hnd
    unfold dictUpdate
    simp only [List.foldl_cons]
    rw [show (rest.foldl (fun d kv => dictInsert d kv.1 kv.2)
        (dictInsert a kv.1 kv.2)) = dictUpdate (dictInsert a kv.1 kv.2) rest
      from rfl]
    by_cases hk0 : k = kv.1
    · have hnr : k ∉ rest.map Prod.fst := hk0 ▸ hnd.1
      rw [lookupKV_dictUpdate_notMem rest _ k hnr, hk0,
        lookupKV_dictInsert_self a kv.1 kv.2]
      simp [lookupKV]
    · have hkr : k ∈ rest.map Prod.fst := by
        simp only [List.map_cons, List.mem_cons] at hk
        rcases hk with h0 | h0
        · exact absurd h0 hk0
        · exact h0
      rw [ih _ hnd.2 hkr]
      have : ¬ kv.1 = k := fun hx => hk0 hx.symm
      simp [lookupKV, this]

/-- Lookup through a key-predicate filter: present exactly when the
predicate holds of the key. -/
theorem lookupKV_filter {α : Type} (P : String → Bool)
    (d : List (String × α)) (k : String) :
    lookupKV (d.filter (fun kv => P kv.1)) k =
      (if P k then lookupKV d k else Option.none) := by
  induction d with
  | nil => simp [lookupKV]
  | cons kv rest ih =>
    by_cases hp : P kv.1
    · by_cases hk : kv.1 = k
      · subst hk
        simp [List.filter_cons, hp, lookupKV]
      · simp [List.filter_cons, hp, lookupKV, hk, ih]
    · by_cases hk : kv.1 = k
      · subst hk
        simp [List.filter_cons, hp, lookupKV, ih]
      · simp [List.filter_cons, hp, lookupKV, hk, ih]

/-- C7: with a user argument dict of duplicate-free keys, every key the user
supplied keeps the user value in the merged result; when the signature has a
catch-all keyword parameter every other key is served from the whole triple;
otherwise the triple is restricted to declared parameter names (a key the
user did not supply resolves to the triple value when declared, and is
absent when not). -/
theorem c7_workspace_triple_merge
    (sig : List (String × ParamKind)) (user ws : List (String × PyVal))
    (huser : (user.map Prod.fst).Nodup) :
    (∀ k, k ∈ user.map Prod.fst →
      lookupKV (append_workspace_triple_to_func_input_params sig user ws) k =
        lookupKV user k) ∧
    (sig.any (fun p => p.2 == ParamKind.VAR_KEYWORD) = true →
      ∀ k, k ∉ user.map Prod.fst →
        lookupKV (append_workspace_triple_to_func_input_params sig user ws) k =
          lookupKV ws k) ∧
    (sig.any (fun p => p.2 == ParamKind.VAR_KEYWORD) = false →
      ∀ k, k ∉ user.map Prod.fst →
        lookupKV (append_workspace_triple_to_func_input_params sig user ws) k =
          (if sig.any (fun p => p.1 == k) then lookupKV ws k
           else Option.none)) := by
  refine ⟨fun k hk => ?_, fun hkw k hk => ?_, fun hkw k hk => ?_⟩
  · exact lookupKV_dictUpdate_mem user _ k huser hk
  · unfold append_workspace_triple_to_func_input_params
    simp only [hkw]
    rw [if_neg (by simp)]
    exact lookupKV_dictUpdate_notMem user ws k hk
  · unfold append_workspace_triple_to_func_input_params
    simp only [hkw, if_pos rfl]
    rw [lookupKV_dictUpdate_notMem user _ k hk]
    exact lookupKV_filter (fun s => sig.any (fun p => p.1 == s)) ws k

/-- C7 witness: with only `subscription_id` declared and user-supplied, the
user value wins for it and the undeclared `workspace_name` triple entry is
filtered out. -/
theorem c7_workspace_triple_merge_witness :
    lookupKV (append_workspace_triple_to_func_input_params exSig exUser exTriple)
      "subscription_id" = some (PyVal.pyStr "user-sub") ∧
    lookupKV (append_workspace_triple_to_func_input_params exSig exUser exTriple)
      "workspace_name" = Option.none := by
  have h := c7_workspace_triple_merge exSig exUser exTriple (by
    simp [exUser])
  constructor
  · have h1 := h.1 "subscription_id" (by simp [exUser])
    rw [h1]; rfl
  · have h3 := h.2.2 (by rfl) "workspace_name" (by simp [exUser])
    rw [h3]; rfl

/-- The try-body returns a value only after the callability check
succeeded. -/
theorem load_function_inner_ok_callable (env : PyEnv) (p : String) (f : PyObj)
    (h : load_function_inner env p = Except.ok f) : f.isCallable = true := by
  unfold load_function_inner at h
  rcases hs : rsplitDot p.data with _ | ⟨mchars, fchars⟩
  · rw [hs] at h
    exact absurd h (by simp)
  · simp only [hs] at h
    rcases him : import_module env (String.mk mchars) with e | m
    · simp only [him] at h
      exact absurd h (by simp)
    · simp only [him] at h
      rcases hat : lookupKV m.attrs (String.mk fchars) with _ | g
      · simp only [hat] at h
        exact absurd h (by simp)
      · simp only [hat] at h
        cases hg : g.isCallable
        · rw [if_neg (by simp [hg])] at h
          exact absurd h (by simp)
        · rw [if_pos hg] at h
          simp only [Except.ok.injEq] at h
          exact h ▸ hg

/-- C6: the loader either returns a callable, or fails with a message that
contains the original path string, the fixed expected-format hint, and the
underlying error text (the detail produced by the try-body). -/
theorem c6_load_function_contract (env : PyEnv) (func_path : String) :
    (∀ f, load_function_from_function_path env func_path = Except.ok f →
      f.isCallable = true) ∧
    (∀ msg, load_function_from_function_path env func_path = Except.error msg →
      ∃ detail, load_function_inner env func_path = Except.error detail ∧
        containsSub msg func_path ∧
        containsSub msg functionPathHint ∧
        containsSub msg detail) := by
  constructor
  · intro f h
    unfold load_function_from_function_path at h
    rcases hin : load_function_inner env func_path with e | g
    · rw [hin] at h
      exact absurd h (by simp)
    · rw [hin] at h
      simp only [Except.ok.injEq] at h
      exact h ▸ load_function_inner_ok_callable env func_path g hin
  · intro msg h
    unfold load_function_from_function_path at h
    rcases hin : load_function_inner env func_path with e | g
    · rw [hin] at h
      simp only [Except.error.injEq] at h
      refine ⟨e, rfl, ?_, ?_, ?_⟩
      · refine ⟨("Failed to parse function from function path: " ++ sq).data,
          (sq ++ ". " ++ functionPathHint ++ " Detailed error: " ++ e).data, ?_⟩
        rw [← h]
        simp [String.data_append, List.append_assoc]
      · refine ⟨("Failed to parse function from function path: " ++ sq ++
            func_path ++ sq ++ ". ").data, (" Detailed error: " ++ e).data, ?_⟩
        rw [← h]
        simp [String.data_append, List.append_assoc]
      · refine ⟨("Failed to parse function from function path: " ++ sq ++
            func_path ++ sq ++ ". " ++ functionPathHint ++
            " Detailed error: ").data, ([] : List Char), ?_⟩
        rw [← h]
        simp [String.data_append, List.append_assoc]
    · rw [hin] at h
      exact absurd h (by simp)

/-- C6 witness: in the concrete module table, `os.join` resolves to a
callable, while `os.missing` fails and its wrapped message contains the
path, the hint, and the attribute-error detail. -/
theorem c6_load_function_contract_witness :
    (∃ f, load_function_from_function_path exEnv "os.join" = Except.ok f ∧
      f.isCallable = true) ∧
    (∃ msg detail,
      load_function_from_function_path exEnv "os.missing" = Except.error msg ∧
      load_function_inner exEnv "os.missing" = Except.error detail ∧
      containsSub msg "os.missing" ∧
      containsSub msg functionPathHint ∧
      containsSub msg detail) := by
  constructor
  · exact ⟨⟨true, "builtin function join"⟩, rfl,
      (c6_load_function_contract exEnv "os.join").1 ⟨true, "builtin function join"⟩ rfl⟩
  · obtain ⟨detail, hdet, h1, h2, h3⟩ :=
      (c6_load_function_contract exEnv "os.missing").2 _ rfl
    exact ⟨_, detail, rfl, hdet, h1, h2, h3⟩

/-- When the pattern occurs only as the trailing suffix, replace-all by the
empty string strips exactly that suffix. -/
theorem pyReplaceAux_unique_suffix (pat : List Char) (hpat : pat ≠ []) :
    ∀ fuel (pre : List Char), (pre ++ pat).length ≤ fuel →
      (∀ i, i < pre.length → pat.isPrefixOf ((pre ++ pat).drop i) = false) →
      pyReplaceAux pat [] fuel (pre ++ pat) = pre := by
  intro fuel
  induction fuel with
  | zero =>
    intro pre hlen _
    exfalso
    have : pat.length = 0 := by
      have := List.length_append pre pat ▸ hlen
      omega
    exact hpat (List.length_eq_zero.mp this)
  | succ fuel ih =>
    intro pre hlen huniq
    cases pre with
    | nil =>
      rcases hp : pat with _ | ⟨c, rest⟩
      · exact absurd hp hpat
      · subst hp
        rw [List.nil_append]
        rw [show pyReplaceAux (c :: rest) [] (fuel + 1) (c :: rest) =
            (if (c :: rest) ≠ [] ∧ (c :: rest).isPrefixOf (c :: rest) then
              [] ++ pyReplaceAux (c :: rest) [] fuel
                ((c :: rest).drop (c :: rest).length)
            else c :: pyReplaceAux (c :: rest) [] fuel rest) from by
          simp only [pyReplaceAux]]
        rw [if_pos ⟨by simp, List.isPrefixOf_iff_prefix.mpr (by simp)⟩]
        rw [List.drop_length, List.nil_append]
        cases fuel <;> rfl
    | cons c pre' =>
      have h0 := huniq 0 (by simp)
      rw [List.drop_zero, List.cons_append] at h0
      rw [List.cons_append]
      rw [show pyReplaceAux pat [] (fuel + 1) (c :: (pre' ++ pat)) =
          (if pat ≠ [] ∧ pat.isPrefixOf (c :: (pre' ++ pat)) then
            [] ++ pyReplaceAux pat [] fuel ((c :: (pre' ++ pat)).drop pat.length)
          else c :: pyReplaceAux pat [] fuel (pre' ++ pat)) from by
        simp only [pyReplaceAux]]
      rw [if_neg (by
        rintro ⟨-, hpref⟩
        rw [h0] at hpref
        exact absurd hpref (by simp))]
      congr 1
      apply ih
      · simp only [List.cons_append, List.length_append, List.length_cons]
          at hlen ⊢
        omega
      · intro i hi
        have := huniq (i + 1) (by simp only [List.length_cons]; omega)
        rwa [List.cons_append, List.drop_succ_cons] at this

/-- C8 counterexample: for the nested-class method with qualified name
"A.foo.foo" and name "foo", the builder deletes BOTH occurrences of ".foo"
and records class name "A", whereas stripping exactly the trailing
".functionname" suffix would leave "A.foo". -/
theorem c8_counterexample :
    function_to_tool_definition exNestedFoo Option.none Option.none Option.none =
      Except.ok ⟨Option.none, "mymod", "A.foo.foo", Option.none, [], [],
        some "A", "foo", true, "test"⟩ ∧
    some "A" ≠ some "A.foo" :=
  ⟨rfl, by decide⟩

/-- C8 amended: the class name is absent when the qualified name contains no
dot; when a dot is present, every occurrence of "." + the function name is
deleted from the qualified name — in particular, when that string occurs
only as the trailing suffix, the class name is the qualified name with
exactly that suffix stripped. -/
theorem c8_core (f : FuncMeta) (ty : Option String) (t : Tool)
    (h : function_to_tool_definition f Option.none ty Option.none = Except.ok t) :
    (('.' ∉ f.qualname.data) → t.class_name = Option.none) ∧
    (∀ pre : List Char,
      f.qualname.data = pre ++ ('.' :: f.name.data) →
      (∀ i, i < pre.length →
        ('.' :: f.name.data).isPrefixOf (f.qualname.data.drop i) = false) →
      t.class_name = some (String.mk pre)) := by
  simp only [function_to_tool_definition, function_to_interface] at h
  simp only [Except.ok.injEq] at h
  subst h
  constructor
  · intro hnd
    simp [hnd]
  · intro pre hdec huniq
    have hmem : '.' ∈ f.qualname.data := by
      rw [hdec]; exact List.mem_append_right _ (List.mem_cons_self _ _)
    have huniq' : ∀ i, i < pre.length →
        ('.' :: f.name.data).isPrefixOf
          ((pre ++ ('.' :: f.name.data)).drop i) = false :=
      fun i hi => hdec ▸ huniq i hi
    simp only [hmem, if_true, pyReplace, hdec]
    rw [pyReplaceAux_unique_suffix ('.' :: f.name.data) (by simp) _ pre
      le_rfl huniq']
    exact if_pos (List.mem_append_right _ (List.mem_cons_self _ _))

/-- C8 amended, at the builder interface: for every callable (after the
one-step unwrap of a decorated callable) the class name is absent when the
qualified name has no dot; when a dot is present every occurrence of "." +
the function name is deleted, which strips exactly the trailing suffix
whenever that suffix occurs nowhere else. -/
theorem c8_amended (f0 : FuncMeta) (original : Option FuncMeta)
    (ty : Option String) (t : Tool)
    (h : function_to_tool_definition f0 original ty Option.none = Except.ok t) :
    (('.' ∉ (original.getD f0).qualname.data) → t.class_name = Option.none) ∧
    (∀ pre : List Char,
      (original.getD f0).qualname.data =
        pre ++ ('.' :: (original.getD f0).name.data) →
      (∀ i, i < pre.length →
        ('.' :: (original.getD f0).name.data).isPrefixOf
          ((original.getD f0).qualname.data.drop i) = false) →
      t.class_name = some (String.mk pre)) := by
  rcases original with _ | g
  · exact c8_core f0 ty t h
  · exact c8_core g ty t h

/-- C8 witness: the ordinary method `MyTool.bar` (whose ".bar" suffix occurs
only at the end) gets class name "MyTool". -/
theorem c8_amended_witness :
    ∃ t, function_to_tool_definition exMethodBar Option.none Option.none
        Option.none = Except.ok t ∧ t.class_name = some "MyTool" := by
  have h := c8_amended exMethodBar Option.none Option.none
    ⟨Option.none, "mymod", "MyTool.bar", Option.none, [], [], some "MyTool",
      "bar", true, "test"⟩ rfl
  exact ⟨_, rfl, h.2 "MyTool".data (by decide) (by decide)⟩

theorem scanVars_text_cons (c : Char) (t : List Char) :
    scanVars SMode.text (c :: t) =
      if c = lb then scanVars SMode.sawOpen t else scanVars SMode.text t := rfl

theorem scanVars_sawOpen_cons (c : Char) (t : List Char) :
    scanVars SMode.sawOpen (c :: t) =
      if c = lb then scanVars (SMode.inVar []) t else scanVars SMode.text t := rfl

theorem scanVars_inVar_cons (acc : List Char) (c : Char) (t : List Char) :
    scanVars (SMode.inVar acc) (c :: t) =
      if c = rb then scanVars (SMode.sawClose acc) t
      else scanVars (SMode.inVar (c :: acc)) t := rfl

theorem scanVars_sawClose_cons (acc : List Char) (c : Char) (t : List Char) :
    scanVars (SMode.sawClose acc) (c :: t) =
      if c = rb then
        (match identOf acc.reverse with
         | some name => (scanVars SMode.text t).map (fun vs => String.mk name :: vs)
         | Option.none => Option.none)
      else scanVars (SMode.inVar (c :: rb :: acc)) t := rfl

/-- Literal text without opening braces is scanned through without
effect. -/
theorem scanVars_text_walk (cs : List Char) (h : ∀ c ∈ cs, ¬ c = lb) :
    ∀ t, scanVars SMode.text (cs ++ t) = scanVars SMode.text t := by
  induction cs with
  | nil => intro t; rfl
  | cons c cs ih =>
    intro t
    rw [List.cons_append, scanVars_text_cons, if_neg (h c (by simp))]
    exact ih (fun d hd => h d (by simp [hd])) t

/-- Inside a variable block, characters other than the closing brace are
accumulated (reversed) into the content. -/
theorem scanVars_inVar_walk (cs : List Char) (h : ∀ c ∈ cs, ¬ c = rb) :
    ∀ acc t, scanVars (SMode.inVar acc) (cs ++ t) =
      scanVars (SMode.inVar (cs.reverse ++ acc)) t := by
  induction cs with
  | nil => intro acc t; rfl
  | cons c cs ih =>
    intro acc t
    rw [List.cons_append, scanVars_inVar_cons, if_neg (h c (by simp))]
    rw [ih (fun d hd => h d (by simp [hd])) (c :: acc) t]
    simp [List.append_assoc]

theorem dropWhile_append_of_all {p : Char → Bool} (w x : List Char)
    (h : ∀ c ∈ w, p c = true) : (w ++ x).dropWhile p = x.dropWhile p := by
  induction w with
  | nil => rfl
  | cons c w ih =>
    rw [List.cons_append, List.dropWhile_cons, if_pos (h c (by simp))]
    exact ih (fun d hd => h d (by simp [hd]))

theorem dropWhile_of_all_neg {p : Char → Bool} (x : List Char)
    (h : ∀ c ∈ x, p c = false) : x.dropWhile p = x := by
  cases x with
  | nil => rfl
  | cons c t => rw [List.dropWhile_cons, if_neg (by simp [h c (by simp)])]

/-- Stripping ignores a leading all-whitespace block. -/
theorem pyStrip_ws_lead (w x : List Char) (h : ∀ c ∈ w, isWs c = true) :
    pyStrip (w ++ x) = pyStrip x := by
  unfold pyStrip
  rw [dropWhile_append_of_all w x h]

/-- Stripping a list that starts with a non-whitespace character and ends in
a whitespace block keeps exactly the head part. -/
theorem pyStrip_nonws_trailing (c0 : Char) (x w : List Char)
    (h0 : isWs c0 = false) (hx : ∀ c ∈ x, isWs c = false)
    (hw : ∀ c ∈ w, isWs c = true) : pyStrip ((c0 :: x) ++ w) = c0 :: x := by
  unfold pyStrip
  rw [List.cons_append, List.dropWhile_cons, if_neg (by simp [h0])]
  rw [show (c0 :: (x ++ w)).reverse = w.reverse ++ (x.reverse ++ [c0]) from by
    simp [List.reverse_append]]
  rw [dropWhile_append_of_all w.reverse _
    (fun c hc => hw c (List.mem_reverse.mp hc))]
  rw [dropWhile_of_all_neg (x.reverse ++ [c0]) (by
    intro c hc
    rcases List.mem_append.mp hc with hc | hc
    · exact hx c (List.mem_reverse.mp hc)
    · simp only [List.mem_singleton] at hc
      subst hc
      exact h0)]
  simp [List.reverse_append]

/-- Group one of the image pattern always strips to the word image. -/
theorem pyStrip_g1 (w1 w2 : List Char) (h1 : ∀ c ∈ w1, isWs c = true)
    (h2 : ∀ c ∈ w2, isWs c = true) :
    pyStrip (w1 ++ ("image".data ++ w2)) = "image".data := by
  rw [pyStrip_ws_lead w1 _ h1]
  exact pyStrip_nonws_trailing 'i' ("mage".data) w2 (by decide) (by decide) h2

theorem mem_dropWhile_of_not {p : Char → Bool} {x : Char} :
    ∀ l : List Char, x ∈ l → p x = false → x ∈ l.dropWhile p := by
  intro l hl hx
  induction l with
  | nil => simp at hl
  | cons c t ih =>
    rw [List.dropWhile_cons]
    by_cases hc : p c = true
    · rw [if_pos hc]
      rcases List.mem_cons.mp hl with h1 | h1
      · subst h1
        rw [hx] at hc
        exact absurd hc (by simp)
      · exact ih h1
    · rw [if_neg hc]
      exact hl

/-- A non-whitespace member survives stripping. -/
theorem mem_pyStrip_of_not_ws {x : Char} {s : List Char} (h : x ∈ s)
    (hx : isWs x = false) : x ∈ pyStrip s := by
  unfold pyStrip
  have h1 := mem_dropWhile_of_not s h hx
  have h2 : x ∈ (s.dropWhile isWs).reverse := List.mem_reverse.mpr h1
  exact List.mem_reverse.mpr (mem_dropWhile_of_not _ h2 hx)

theorem isIdentStart_not_ws (c : Char) (h : isIdentStart c = true) :
    isWs c = false := by
  cases hx : isWs c
  · rfl
  · exfalso
    simp only [isWs, Bool.or_eq_true, beq_iff_eq] at hx
    rcases hx with ((((h1|h1)|h1)|h1)|h1)|h1 <;> subst h1 <;>
      exact absurd h (by decide)

theorem isIdentChar_not_ws (c : Char) (h : isIdentChar c = true) :
    isWs c = false := by
  cases hx : isWs c
  · rfl
  · exfalso
    simp only [isWs, Bool.or_eq_true, beq_iff_eq] at hx
    rcases hx with ((((h1|h1)|h1)|h1)|h1)|h1 <;> subst h1 <;>
      exact absurd h (by decide)

/-- A successful name extraction names the stripped content, which is a
nonempty all-non-whitespace list. -/
theorem identOf_some_eq {content name : List Char}
    (h : identOf content = some name) :
    name = pyStrip content ∧ name ≠ [] ∧ ∀ c ∈ name, isWs c = false := by
  unfold identOf at h
  rcases hp : pyStrip content with _ | ⟨c, rest⟩
  · simp only [hp] at h
    exact absurd h (by simp)
  · simp only [hp] at h
    by_cases hc : (isIdentStart c && rest.all isIdentChar) = true
    · rw [if_pos hc] at h
      simp only [Option.some.injEq] at h
      subst h
      simp only [Bool.and_eq_true] at hc
      refine ⟨rfl, by simp, ?_⟩
      intro d hd
      rcases List.mem_cons.mp hd with h1 | h1
      · subst h1
        exact isIdentStart_not_ws d hc.1
      · exact isIdentChar_not_ws d (List.all_eq_true.mp hc.2 d h1)
    · rw [if_neg hc] at h
      exact absurd h (by simp)

/-- Content containing an opening brace never extracts a name. -/
theorem identOf_none_of_mem_lb {content : List Char} (h : lb ∈ content) :
    identOf content = Option.none := by
  have hmem : lb ∈ pyStrip content := mem_pyStrip_of_not_ws h (by decide)
  unfold identOf
  rcases hp : pyStrip content with _ | ⟨c, rest⟩
  · simp only [hp]
  · rw [hp] at hmem
    simp only [hp]
    by_cases hc : (isIdentStart c && rest.all isIdentChar) = true
    · exfalso
      simp only [Bool.and_eq_true] at hc
      rcases List.mem_cons.mp hmem with h1 | h1
      · subst h1
        exact absurd hc.1 (by decide)
      · exact absurd (List.all_eq_true.mp hc.2 lb h1) (by decide)
    · rw [if_neg hc]

/-- Dropping part of the leading whitespace is invisible to stripping. -/
theorem pyStrip_drop_ws (run : List Char) (k : Nat)
    (hk : k ≤ (run.takeWhile isWs).length) :
    pyStrip (run.drop k) = pyStrip run := by
  conv_rhs => rw [← List.takeWhile_append_dropWhile (p := isWs) (l := run)]
  rw [show run.drop k = (run.takeWhile isWs).drop k ++ run.dropWhile isWs from by
    conv_lhs => rw [← List.takeWhile_append_dropWhile (p := isWs) (l := run)]
    rw [List.drop_append_eq_append_drop, Nat.sub_eq_zero_of_le hk, List.drop_zero]]
  rw [pyStrip_ws_lead _ _ (fun c hc =>
    List.mem_takeWhile_imp (List.mem_of_mem_drop hc))]
  rw [pyStrip_ws_lead _ _ (fun c hc => List.mem_takeWhile_imp hc)]

/-- Membership in a name-deduplicated list. -/
theorem mem_dedupFirstAux : ∀ (l seen : List String) (x : String),
    x ∈ dedupFirstAux seen l ↔ (x ∈ l ∧ x ∉ seen) := by
  intro l
  induction l with
  | nil => intro seen x; simp [dedupFirstAux]
  | cons y l ih =>
    intro seen x
    unfold dedupFirstAux
    by_cases hy : y ∈ seen
    · rw [if_pos hy, ih]
      constructor
      · rintro ⟨h1, h2⟩
        exact ⟨by simp [h1], h2⟩
      · rintro ⟨h1, h2⟩
        rcases List.mem_cons.mp h1 with h3 | h3
        · subst h3
          exact absurd hy h2
        · exact ⟨h3, h2⟩
    · rw [if_neg hy]
      constructor
      · intro h1
        rcases List.mem_cons.mp h1 with h3 | h3
        · subst h3
          exact ⟨by simp, hy⟩
        · obtain ⟨h4, h5⟩ := (ih (y :: seen) x).mp h3
          exact ⟨by simp [h4], fun hx => h5 (by simp [hx])⟩
      · rintro ⟨h1, h2⟩
        rcases List.mem_cons.mp h1 with h3 | h3
        · subst h3
          exact List.mem_cons_self _ _
        · by_cases hxy : x = y
          · subst hxy
            exact List.mem_cons_self _ _
          · exact List.mem_cons_of_mem _ ((ih (y :: seen) x).mpr
              ⟨h3, by simp [hxy, h2]⟩)

theorem mem_dedupFirst {l : List String} {x : String} :
    x ∈ dedupFirst l ↔ x ∈ l := by
  unfold dedupFirst
  rw [mem_dedupFirstAux]
  simp

/-- Elements of a stable insertion. -/
theorem mem_insortByKey (key : String → Int) (x z : String) :
    ∀ l, z ∈ insortByKey key x l ↔ (z = x ∨ z ∈ l) := by
  intro l
  induction l with
  | nil => simp [insortByKey]
  | cons y ys ih =>
    unfold insortByKey
    by_cases hy : key y ≤ key x
    · rw [if_pos hy]
      simp only [List.mem_cons, ih]
      tauto
    · rw [if_neg hy]
      simp only [List.mem_cons]

/-- Stable insertion preserves the key ordering. -/
theorem insortByKey_pairwise (key : String → Int) (x : String) :
    ∀ l, List.Pairwise (fun a b => key a ≤ key b) l →
      List.Pairwise (fun a b => key a ≤ key b) (insortByKey key x l) := by
  intro l
  induction l with
  | nil => intro _; simp [insortByKey]
  | cons y ys ih =>
    intro hp
    rw [List.pairwise_cons] at hp
    unfold insortByKey
    by_cases hy : key y ≤ key x
    · rw [if_pos hy]
      rw [List.pairwise_cons]
      refine ⟨?_, ih hp.2⟩
      intro z hz
      rcases (mem_insortByKey key x z ys).mp hz with h1 | h1
      · subst h1
        exact hy
      · exact hp.1 z h1
    · rw [if_neg hy]
      rw [List.pairwise_cons]
      refine ⟨?_, List.pairwise_cons.mpr hp⟩
      intro z hz
      rcases List.mem_cons.mp hz with h1 | h1
      · subst h1
        omega
      · exact le_trans (by omega) (hp.1 z h1)

/-- Stable insertion is a permutation of consing. -/
theorem insortByKey_perm (key : String → Int) (x : String) :
    ∀ l, (insortByKey key x l).Perm (x :: l) := by
  intro l
  induction l with
  | nil => simp [insortByKey]
  | cons y ys ih =>
    unfold insortByKey
    by_cases hy : key y ≤ key x
    · rw [if_pos hy]
      exact (List.Perm.cons y ih).trans (List.Perm.swap x y ys)
    · rw [if_neg hy]

/-- The insertion sort is a permutation of its input. -/
theorem sortByKey_perm (key : String → Int) (l : List String) :
    (sortByKey key l).Perm l := by
  suffices h : ∀ (l acc : List String),
      ((l.foldl (fun a x => insortByKey key x a) acc)).Perm (acc ++ l) by
    simpa using h l []
  intro l
  induction l with
  | nil => intro acc; simp
  | cons x xs ih =>
    intro acc
    rw [List.foldl_cons]
    refine ((ih (insortByKey key x acc)).trans ?_)
    refine (List.Perm.append_right xs (insortByKey_perm key x acc)).trans ?_
    exact List.perm_middle.symm.trans (by simp)

/-- The insertion sort output is sorted by key. -/
theorem sortByKey_pairwise (key : String → Int) (l : List String) :
    List.Pairwise (fun a b => key a ≤ key b) (sortByKey key l) := by
  suffices h : ∀ (l acc : List String),
      List.Pairwise (fun a b => key a ≤ key b) acc →
      List.Pairwise (fun a b => key a ≤ key b)
        (l.foldl (fun a x => insortByKey key x a) acc) by
    exact h l [] (by simp)
  intro l
  induction l with
  | nil => intro acc h; simpa using h
  | cons x xs ih =>
    intro acc h
    rw [List.foldl_cons]
    exact ih _ (insortByKey_pairwise key x acc h)

/-- Inserting an existing key leaves the key list unchanged. -/
theorem dictInsert_map_fst_mem {α : Type} (d : List (String × α)) (k : String)
    (v : α) (h : k ∈ d.map Prod.fst) :
    (dictInsert d k v).map Prod.fst = d.map Prod.fst := by
  unfold dictInsert
  obtain ⟨p, hp, hpk⟩ := List.mem_map.mp h
  rw [if_pos (List.any_eq_true.mpr ⟨p, hp, by simp [hpk]⟩)]
  rw [List.map_map]
  refine List.map_congr_left ?_
  intro kv _
  by_cases hk : kv.1 = k
  · simp [hk]
  · simp [hk]

/-- Inserting a new key appends it to the key list. -/
theorem dictInsert_map_fst_notMem {α : Type} (d : List (String × α)) (k : String)
    (v : α) (h : k ∉ d.map Prod.fst) :
    (dictInsert d k v).map Prod.fst = d.map Prod.fst ++ [k] := by
  unfold dictInsert
  rw [if_neg ?_, List.map_append]
  · rfl
  · intro hany
    obtain ⟨p, hp, hpk⟩ := List.any_eq_true.mp hany
    exact h (List.mem_map.mpr ⟨p, hp, by simpa using hpk⟩)

theorem scanVars_text_lb (t : List Char) :
    scanVars SMode.text (lb :: t) = scanVars SMode.sawOpen t := by
  rw [scanVars_text_cons, if_pos rfl]

theorem scanVars_sawOpen_lb (t : List Char) :
    scanVars SMode.sawOpen (lb :: t) = scanVars (SMode.inVar []) t := by
  rw [scanVars_sawOpen_cons, if_pos rfl]

theorem scanVars_inVar_rb (acc : List Char) (t : List Char) :
    scanVars (SMode.inVar acc) (rb :: t) = scanVars (SMode.sawClose acc) t := by
  rw [scanVars_inVar_cons, if_pos rfl]

theorem scanVars_inVar_lb (acc : List Char) (t : List Char) :
    scanVars (SMode.inVar acc) (lb :: t) =
      scanVars (SMode.inVar (lb :: acc)) t := by
  rw [scanVars_inVar_cons, if_neg (by decide)]

theorem scanVars_sawClose_rb (acc : List Char) (t : List Char) :
    scanVars (SMode.sawClose acc) (rb :: t) =
      (match identOf acc.reverse with
       | some name => (scanVars SMode.text t).map (fun vs => String.mk name :: vs)
       | Option.none => Option.none) := by
  rw [scanVars_sawClose_cons, if_pos rfl]

theorem scanVars_sawClose_lb (acc : List Char) (t : List Char) :
    scanVars (SMode.sawClose acc) (lb :: t) =
      scanVars (SMode.inVar (lb :: rb :: acc)) t := by
  rw [scanVars_sawClose_cons, if_neg (by decide)]

/-- In any scan state, a double-brace block with brace-free content inside a
template whose scan succeeds contributes its identifier to the emitted
names. -/
theorem scanVars_block (n : Nat) : ∀ s : List Char, s.length ≤ n →
    ∀ (m : SMode) (vs : List String) (a run b : List Char),
      scanVars m s = some vs →
      s = a ++ lb :: lb :: (run ++ rb :: rb :: b) →
      (∀ c ∈ run, ¬ c = lb) → (∀ c ∈ run, ¬ c = rb) →
      ∃ name, identOf run = some name ∧ String.mk name ∈ vs := by
  induction n with
  | zero =>
    intro s hs m vs a run b hscan hdec hrun1 hrun2
    have hnil : s = [] := List.length_eq_zero.mp (Nat.le_zero.mp hs)
    rw [hnil] at hdec
    exact absurd hdec.symm (by simp)
  | succ n ih =>
    intro s hs m vs a run b hscan hdec hrun1 hrun2
    cases a with
    | nil =>
      simp only [List.nil_append] at hdec
      subst hdec
      cases m with
      | text =>
        rw [scanVars_text_lb, scanVars_sawOpen_lb,
          scanVars_inVar_walk run hrun2 [] (rb :: rb :: b), List.append_nil,
          scanVars_inVar_rb, scanVars_sawClose_rb, List.reverse_reverse]
          at hscan
        rcases hid : identOf run with _ | name
        · rw [hid] at hscan
          simp at hscan
        · rw [hid] at hscan
          rcases hb : scanVars SMode.text b with _ | vs2
          · rw [hb] at hscan
            simp at hscan
          · rw [hb] at hscan
            simp only [Option.map_some', Option.some.injEq] at hscan
            exact ⟨name, rfl, hscan ▸ List.mem_cons_self _ _⟩
      | sawOpen =>
        rw [scanVars_sawOpen_lb, scanVars_inVar_lb,
          scanVars_inVar_walk run hrun2 [lb] (rb :: rb :: b),
          scanVars_inVar_rb, scanVars_sawClose_rb] at hscan
        rw [show (run.reverse ++ [lb]).reverse = lb :: run from by simp,
          identOf_none_of_mem_lb (List.mem_cons_self _ _)] at hscan
        simp at hscan
      | inVar acc =>
        rw [scanVars_inVar_lb, scanVars_inVar_lb,
          scanVars_inVar_walk run hrun2 (lb :: lb :: acc) (rb :: rb :: b),
          scanVars_inVar_rb, scanVars_sawClose_rb] at hscan
        rw [identOf_none_of_mem_lb (by simp)] at hscan
        simp at hscan
      | sawClose acc =>
        rw [scanVars_sawClose_lb, scanVars_inVar_lb,
          scanVars_inVar_walk run hrun2 (lb :: lb :: rb :: acc) (rb :: rb :: b),
          scanVars_inVar_rb, scanVars_sawClose_rb] at hscan
        rw [identOf_none_of_mem_lb (by simp)] at hscan
        simp at hscan
    | cons c a' =>
      rw [List.cons_append] at hdec
      subst hdec
      have hs' : (a' ++ lb :: lb :: (run ++ rb :: rb :: b)).length ≤ n := by
        simp only [List.length_cons] at hs
        omega
      cases m with
      | text =>
        by_cases hc : c = lb
        · subst hc
          rw [scanVars_text_lb] at hscan
          exact ih _ hs' SMode.sawOpen vs a' run b hscan rfl hrun1 hrun2
        · rw [scanVars_text_cons, if_neg hc] at hscan
          exact ih _ hs' SMode.text vs a' run b hscan rfl hrun1 hrun2
      | sawOpen =>
        by_cases hc : c = lb
        · subst hc
          rw [scanVars_sawOpen_lb] at hscan
          exact ih _ hs' (SMode.inVar []) vs a' run b hscan rfl hrun1 hrun2
        · rw [scanVars_sawOpen_cons, if_neg hc] at hscan
          exact ih _ hs' SMode.text vs a' run b hscan rfl hrun1 hrun2
      | inVar acc =>
        by_cases hc : c = rb
        · subst hc
          rw [scanVars_inVar_rb] at hscan
          exact ih _ hs' (SMode.sawClose acc) vs a' run b hscan rfl hrun1 hrun2
        · rw [scanVars_inVar_cons, if_neg hc] at hscan
          exact ih _ hs' (SMode.inVar (c :: acc)) vs a' run b hscan rfl hrun1 hrun2
      | sawClose acc =>
        by_cases hc : c = rb
        · subst hc
          rw [scanVars_sawClose_rb] at hscan
          rcases hid0 : identOf acc.reverse with _ | name0
          · rw [hid0] at hscan
            simp at hscan
          · rw [hid0] at hscan
            rcases hb : scanVars SMode.text
                (a' ++ lb :: lb :: (run ++ rb :: rb :: b)) with _ | vs2
            · rw [hb] at hscan
              simp at hscan
            · rw [hb] at hscan
              simp only [Option.map_some', Option.some.injEq] at hscan
              obtain ⟨name, hid, hmem⟩ :=
                ih _ hs' SMode.text vs2 a' run b hb rfl hrun1 hrun2
              exact ⟨name, hid, hscan ▸ List.mem_cons_of_mem _ hmem⟩
        · rw [scanVars_sawClose_cons, if_neg hc] at hscan
          exact ih _ hs' (SMode.inVar (c :: rb :: acc)) vs a' run b hscan rfl
            hrun1 hrun2

theorem expectChar_some {c : Char} {s t : List Char} :
    expectChar c s = some t ↔ s = c :: t := by
  cases s with
  | nil => simp [expectChar]
  | cons d rest =>
    unfold expectChar
    by_cases hd : d = c
    · subst hd
      simp
    · simp [hd]

/-- A successful image-pattern match decomposes the scanned text into the
literal frame, the whitespace groups and the brace-free content run, and
determines both captured groups. -/
theorem matchImageAt_decomp (s g1 g2 r : List Char)
    (h : matchImageAt s = some (g1, g2, r)) :
    ∃ w1 w2 run,
      s = '!' :: '[' :: (w1 ++ ("image".data ++ (w2 ++ ']' :: '(' :: lb :: lb ::
        (run ++ rb :: rb :: ')' :: r)))) ∧
      (∀ c ∈ w1, isWs c = true) ∧ (∀ c ∈ w2, isWs c = true) ∧
      run ≠ [] ∧ (∀ c ∈ run, ¬ c = lb) ∧ (∀ c ∈ run, ¬ c = rb) ∧
      g1 = w1 ++ ("image".data ++ w2) ∧
      g2 = run.drop (min (run.takeWhile isWs).length (run.length - 1)) := by
  unfold matchImageAt at h
  rcases h1 : expectChar '!' s with _ | s1
  · simp [h1] at h
  simp only [h1] at h
  rcases h2 : expectChar '[' s1 with _ | s2
  · simp [h2] at h
  simp only [h2] at h
  set w1 := s2.takeWhile isWs with hw1
  set s3 := s2.dropWhile isWs with hs3
  by_cases himg : ("image".data).isPrefixOf s3 = true
  case neg =>
    rw [if_neg himg] at h
    exact absurd h (by simp)
  rw [if_pos himg] at h
  set s4 := s3.drop 5 with hs4
  set w2 := s4.takeWhile isWs with hw2
  set s5 := s4.dropWhile isWs with hs5
  rcases h3 : expectChar ']' s5 with _ | s6
  · simp [h3] at h
  simp only [h3] at h
  rcases h4 : expectChar '(' s6 with _ | s7
  · simp [h4] at h
  simp only [h4] at h
  rcases h5 : expectChar lb s7 with _ | s8
  · simp [h5] at h
  simp only [h5] at h
  rcases h6 : expectChar lb s8 with _ | s9
  · simp [h6] at h
  simp only [h6] at h
  set run := s9.takeWhile (fun c => !(c == lb) && !(c == rb)) with hrundef
  set s10 := s9.dropWhile (fun c => !(c == lb) && !(c == rb)) with hs10
  by_cases hrun : run.isEmpty = true
  case pos =>
    rw [if_pos hrun] at h
    exact absurd h (by simp)
  rw [if_neg hrun] at h
  rcases h7 : expectChar rb s10 with _ | s11
  · simp [h7] at h
  simp only [h7] at h
  rcases h8 : expectChar rb s11 with _ | s12
  · simp [h8] at h
  simp only [h8] at h
  rcases h9 : expectChar ')' s12 with _ | s13
  · simp [h9] at h
  simp only [h9] at h
  simp only [Option.some.injEq, Prod.mk.injEq] at h
  obtain ⟨hg1, hg2, hr⟩ := h
  subst hr
  have hseq : s = '!' :: s1 := expectChar_some.mp h1
  have hs1eq : s1 = '[' :: s2 := expectChar_some.mp h2
  have hs2eq : s2 = w1 ++ s3 := by
    rw [hw1, hs3, List.takeWhile_append_dropWhile]
  have hs3eq : s3 = "image".data ++ s4 := by
    obtain ⟨t, ht⟩ := List.isPrefixOf_iff_prefix.mp himg
    have hdrop : ("image".data ++ t).drop 5 = t := by
      have h5len : ("image".data).length = 5 := rfl
      rw [← h5len, List.drop_left]
    rw [hs4, ← ht, hdrop]
  have hs4eq : s4 = w2 ++ s5 := by
    rw [hw2, hs5, List.takeWhile_append_dropWhile]
  have hs5eq : s5 = ']' :: s6 := expectChar_some.mp h3
  have hs6eq : s6 = '(' :: s7 := expectChar_some.mp h4
  have hs7eq : s7 = lb :: s8 := expectChar_some.mp h5
  have hs8eq : s8 = lb :: s9 := expectChar_some.mp h6
  have hs9eq : s9 = run ++ s10 := by
    rw [hrundef, hs10, List.takeWhile_append_dropWhile]
  have hs10eq : s10 = rb :: s11 := expectChar_some.mp h7
  have hs11eq : s11 = rb :: s12 := expectChar_some.mp h8
  have hs12eq : s12 = ')' :: s13 := expectChar_some.mp h9
  refine ⟨w1, w2, run, ?_, ?_, ?_, ?_, ?_, ?_, hg1.symm, hg2.symm⟩
  · rw [hseq, hs1eq, hs2eq, hs3eq, hs4eq, hs5eq, hs6eq, hs7eq, hs8eq, hs9eq,
      hs10eq, hs11eq, hs12eq]
  · intro c hc
    exact List.mem_takeWhile_imp (hw1 ▸ hc)
  · intro c hc
    exact List.mem_takeWhile_imp (hw2 ▸ hc)
  · intro hnil
    rw [hnil] at hrun
    exact hrun rfl
  · intro c hc
    have := List.mem_takeWhile_imp (hrundef ▸ hc)
    simp only [Bool.and_eq_true, Bool.not_eq_true', beq_eq_false_iff_ne] at this
    exact this.1
  · intro c hc
    have := List.mem_takeWhile_imp (hrundef ▸ hc)
    simp only [Bool.and_eq_true, Bool.not_eq_true', beq_eq_false_iff_ne] at this
    exact this.2

/-- A match leaves its remainder as a suffix of the scanned text. -/
theorem matchImageAt_tail (s g1 g2 r : List Char)
    (h : matchImageAt s = some (g1, g2, r)) : ∃ u, s = u ++ r := by
  obtain ⟨w1, w2, run, hdec, _⟩ := matchImageAt_decomp s g1 g2 r h
  refine ⟨'!' :: '[' :: w1 ++ "image".data ++ w2 ++ [']', '('] ++ [lb, lb] ++
    run ++ [rb, rb, ')'], ?_⟩
  rw [hdec]
  simp [List.append_assoc]

/-- Every emitted match arises from a suffix of the template. -/
theorem mem_findImageMatchesAux :
    ∀ (fuel : Nat) (s : List Char) (g : List Char × List Char),
      g ∈ findImageMatchesAux fuel s →
      ∃ u t r, s = u ++ t ∧ matchImageAt t = some (g.1, g.2, r) := by
  intro fuel
  induction fuel with
  | zero =>
    intro s g hg
    simp [findImageMatchesAux] at hg
  | succ fuel ih =>
    intro s g hg
    cases s with
    | nil => simp [findImageMatchesAux] at hg
    | cons c rest =>
      unfold findImageMatchesAux at hg
      rcases hm : matchImageAt (c :: rest) with _ | ⟨mg1, mg2, rest2⟩
      · simp only [hm] at hg
        obtain ⟨u, t, r, hst, hmt⟩ := ih rest g hg
        exact ⟨c :: u, t, r, by rw [hst]; rfl, hmt⟩
      · simp only [hm] at hg
        rcases List.mem_cons.mp hg with h1 | h1
        · subst h1
          exact ⟨[], c :: rest, rest2, by simp, hm⟩
        · obtain ⟨u, t, r, hst, hmt⟩ := ih rest2 g h1
          obtain ⟨u0, hu0⟩ := matchImageAt_tail (c :: rest) mg1 mg2 rest2 hm
          exact ⟨u0 ++ u, t, r, by rw [hu0, hst]; simp [List.append_assoc], hmt⟩

/-- Group one of every emitted match strips to the word image. -/
theorem findImageMatches_g1 (s : List Char) (g : List Char × List Char)
    (hg : g ∈ findImageMatches s) : pyStrip g.1 = "image".data := by
  obtain ⟨u, t, r, _, hmt⟩ := mem_findImageMatchesAux s.length s g hg
  obtain ⟨w1, w2, run, _, hw1, hw2, _, _, _, hg1, _⟩ :=
    matchImageAt_decomp t g.1 g.2 r hmt
  rw [hg1]
  exact pyStrip_g1 w1 w2 hw1 hw2

/-- When the template scan succeeds, the stripped token of every emitted
match is one of the scanned variable names. -/
theorem findImageMatches_token_mem (s : List Char) (vs0 : List String)
    (g : List Char × List Char) (hg : g ∈ findImageMatches s)
    (hscan : scanVars SMode.text s = some vs0) :
    String.mk (pyStrip g.2) ∈ vs0 := by
  obtain ⟨u, t, r, hst, hmt⟩ := mem_findImageMatchesAux s.length s g hg
  obtain ⟨w1, w2, run, htdec, hw1, hw2, hne, hlb, hrb, hg1, hg2⟩ :=
    matchImageAt_decomp t g.1 g.2 r hmt
  have hdec : s = (u ++ ('!' :: '[' :: w1 ++ ("image".data ++ w2) ++
      [']', '('])) ++ lb :: lb :: (run ++ rb :: rb :: (')' :: r)) := by
    rw [hst, htdec]
    simp [List.append_assoc]
  obtain ⟨name, hid, hmem⟩ := scanVars_block s.length s le_rfl SMode.text vs0 _
    run _ hscan hdec hlb hrb
  obtain ⟨hname, hnne, hnws⟩ := identOf_some_eq hid
  have htok : pyStrip g.2 = name := by
    rw [hg2, pyStrip_drop_ws run _ (min_le_left _ _), ← hname]
  rw [htok]
  exact hmem

/-- Folding overrides whose keys are all already present leaves the key list
unchanged. -/
theorem foldInsert_map_fst_of_mem {α : Type}
    (keyOf : List Char × List Char → String)
    (valOf : List Char × List Char → α) :
    ∀ (ms : List (List Char × List Char)) (d : List (String × α)),
      (∀ g ∈ ms, keyOf g ∈ d.map Prod.fst) →
      (ms.foldl (fun d g => dictInsert d (keyOf g) (valOf g)) d).map Prod.fst =
        d.map Prod.fst := by
  intro ms
  induction ms with
  | nil => intro d _; rfl
  | cons g ms ih =>
    intro d hmem
    have hk := dictInsert_map_fst_mem d (keyOf g) (valOf g) (hmem g (by simp))
    rw [List.foldl_cons,
      ih _ (fun g' hg' => by rw [hk]; exact hmem g' (by simp [hg'])), hk]

/-- The initial key list stays a prefix of the key list after folding
overrides. -/
theorem foldInsert_map_fst_isPrefix {α : Type}
    (keyOf : List Char × List Char → String)
    (valOf : List Char × List Char → α) :
    ∀ (ms : List (List Char × List Char)) (d : List (String × α)),
      List.IsPrefix (d.map Prod.fst)
        ((ms.foldl (fun d g => dictInsert d (keyOf g) (valOf g)) d).map
          Prod.fst) := by
  intro ms
  induction ms with
  | nil => intro d; exact List.prefix_refl _
  | cons g ms ih =>
    intro d
    rw [List.foldl_cons]
    refine List.IsPrefix.trans ?_ (ih (dictInsert d (keyOf g) (valOf g)))
    by_cases hk : keyOf g ∈ d.map Prod.fst
    · rw [dictInsert_map_fst_mem d _ _ hk]
    · rw [dictInsert_map_fst_notMem d _ _ hk]
      exact List.prefix_append _ _

/-- Folding overrides for other keys is invisible to a lookup. -/
theorem foldInsert_lookup_untouched {α : Type}
    (keyOf : List Char × List Char → String)
    (valOf : List Char × List Char → α) :
    ∀ (ms : List (List Char × List Char)) (d : List (String × α)) (k : String),
      k ∉ ms.map keyOf →
      lookupKV (ms.foldl (fun d g => dictInsert d (keyOf g) (valOf g)) d) k =
        lookupKV d k := by
  intro ms
  induction ms with
  | nil => intro d k _; rfl
  | cons g ms ih =>
    intro d k hk
    simp only [List.map_cons, List.mem_cons, not_or] at hk
    rw [List.foldl_cons, ih _ k hk.2,
      lookupKV_dictInsert_other d (keyOf g) k (valOf g) hk.1]

/-- After folding overrides that all write the same value, every overridden
key looks up to that value. -/
theorem foldInsert_lookup_of_all {α : Type}
    (keyOf : List Char × List Char → String)
    (valOf : List Char × List Char → α) (v0 : α) :
    ∀ (ms : List (List Char × List Char)) (d : List (String × α)) (k : String),
      (∀ g ∈ ms, valOf g = v0) → k ∈ ms.map keyOf →
      lookupKV (ms.foldl (fun d g => dictInsert d (keyOf g) (valOf g)) d) k =
        some v0 := by
  intro ms
  induction ms with
  | nil =>
    intro d k _ hk
    simp at hk
  | cons g ms ih =>
    intro d k hval hk
    rw [List.foldl_cons]
    by_cases hkm : k ∈ ms.map keyOf
    · exact ih _ k (fun g' hg' => hval g' (by simp [hg'])) hkm
    · have hkg : keyOf g = k := by
        simp only [List.map_cons, List.mem_cons] at hk
        rcases hk with h1 | h1
        · exact h1.symm
        · exact absurd h1 hkm
      rw [foldInsert_lookup_untouched keyOf valOf ms _ k hkm, ← hkg,
        lookupKV_dictInsert_self, hval g (by simp)]

/-- C2: whenever the template parses, the returned mapping has exactly the
undeclared variable names as keys, ordered non-decreasingly by the position
`template_str.find` assigns each name (so a name whose first textual
occurrence is strictly earlier comes strictly first); on the worked example
the key `image_input` precedes `str_input`. -/
theorem c2_template_extraction :
    (∀ (s : List Char) (vars : List String)
        (r : List (String × InputDefinition)),
      find_undeclared_variables s = some vars →
      get_inputs_for_prompt_template s = some r →
      (r.map Prod.fst).Perm vars ∧
      List.Pairwise (fun a b => strFind s a.data ≤ strFind s b.data)
        (r.map Prod.fst)) ∧
    get_inputs_for_prompt_template exTemplate =
      some [("image_input", imageInputDef), ("str_input", stringInputDef)] := by
  constructor
  · intro s vars r hv hr
    obtain ⟨vs0, hscan, hdedup⟩ := Option.map_eq_some'.mp hv
    unfold get_inputs_for_prompt_template at hr
    simp only [hv, Option.some.injEq] at hr
    have hkeys0 : ((sortByKey (fun x => strFind s x.data) vars).map
        (fun i => (i, stringInputDef))).map Prod.fst =
        sortByKey (fun x => strFind s x.data) vars := by
      rw [List.map_map,
        show (Prod.fst ∘ fun i : String => (i, stringInputDef)) = id from
          funext fun i => rfl, List.map_id]
    have htok : ∀ g ∈ findImageMatches s,
        String.mk (pyStrip g.2) ∈
          ((sortByKey (fun x => strFind s x.data) vars).map
            (fun i => (i, stringInputDef))).map Prod.fst := by
      intro g hg
      rw [hkeys0]
      have h1 : String.mk (pyStrip g.2) ∈ vs0 :=
        findImageMatches_token_mem s vs0 g hg hscan
      have h2 : String.mk (pyStrip g.2) ∈ vars :=
        hdedup ▸ mem_dedupFirst.mpr h1
      exact ((sortByKey_perm (fun x => strFind s x.data) vars).mem_iff).mpr h2
    have hfold : ((findImageMatches s).foldl
        (fun d g => dictInsert d (String.mk (pyStrip g.2))
          ⟨[TypeTag.value (valueTypeOfStr (pyStrip g.1))], Option.none,
           Option.none, Option.none, Option.none⟩)
        ((sortByKey (fun x => strFind s x.data) vars).map
          (fun i => (i, stringInputDef)))).map Prod.fst =
        sortByKey (fun x => strFind s x.data) vars := by
      rw [foldInsert_map_fst_of_mem _ _ (findImageMatches s) _ htok, hkeys0]
    have hkeys : r.map Prod.fst = sortByKey (fun x => strFind s x.data) vars := by
      rw [← hr]
      exact hfold
    constructor
    · rw [hkeys]
      exact sortByKey_perm _ vars
    · rw [hkeys]
      exact sortByKey_pairwise _ vars
  · rfl

/-- C2 witness: on the worked example the hypotheses hold by computation and
the conclusion yields the permutation and ordering facts. -/
theorem c2_template_extraction_witness :
    ∃ (vars : List String) (r : List (String × InputDefinition)),
      find_undeclared_variables exTemplate = some vars ∧
      get_inputs_for_prompt_template exTemplate = some r ∧
      (r.map Prod.fst).Perm vars ∧
      List.Pairwise
        (fun a b => strFind exTemplate a.data ≤ strFind exTemplate b.data)
        (r.map Prod.fst) := by
  obtain ⟨h1, h2⟩ := c2_template_extraction.1 exTemplate
    ["image_input", "str_input"]
    [("image_input", imageInputDef), ("str_input", stringInputDef)] rfl rfl
  exact ⟨_, _, rfl, rfl, h1, h2⟩

/-- C5: whenever the template parses, every image micro-syntax match makes
the entry named by its stripped token an image-typed input definition in the
returned mapping (overriding the default string typing), and the initial
variable-detection order remains a prefix of the mapping's declaration
order, so overrides never reorder previously declared keys; on the worked
example the overridden `image_input` still precedes `str_input`. -/
theorem c5_image_override :
    (∀ (s : List Char) (vars : List String)
        (r : List (String × InputDefinition)),
      find_undeclared_variables s = some vars →
      get_inputs_for_prompt_template s = some r →
      (∀ g ∈ findImageMatches s,
        lookupKV r (String.mk (pyStrip g.2)) = some imageInputDef) ∧
      List.IsPrefix (sortByKey (fun x => strFind s x.data) vars)
        (r.map Prod.fst)) ∧
    get_inputs_for_prompt_template exTemplate =
      some [("image_input", imageInputDef), ("str_input", stringInputDef)] := by
  constructor
  · intro s vars r hv hr
    unfold get_inputs_for_prompt_template at hr
    simp only [hv, Option.some.injEq] at hr
    have hval : ∀ g ∈ findImageMatches s,
        (⟨[TypeTag.value (valueTypeOfStr (pyStrip g.1))], Option.none,
          Option.none, Option.none, Option.none⟩ : InputDefinition) =
          imageInputDef := by
      intro g hg
      rw [findImageMatches_g1 s g hg]
      rfl
    constructor
    · intro g hg
      rw [← hr]
      exact foldInsert_lookup_of_all _ _ imageInputDef (findImageMatches s) _
        (String.mk (pyStrip g.2)) hval
        (List.mem_map.mpr ⟨g, hg, rfl⟩)
    · have hkeys0 : ((sortByKey (fun x => strFind s x.data) vars).map
          (fun i => (i, stringInputDef))).map Prod.fst =
          sortByKey (fun x => strFind s x.data) vars := by
        rw [List.map_map,
          show (Prod.fst ∘ fun i : String => (i, stringInputDef)) = id from
            funext fun i => rfl, List.map_id]
      have hpre := foldInsert_map_fst_isPrefix
        (fun g : List Char × List Char => String.mk (pyStrip g.2))
        (fun g : List Char × List Char =>
          (⟨[TypeTag.value (valueTypeOfStr (pyStrip g.1))], Option.none,
            Option.none, Option.none, Option.none⟩ : InputDefinition))
        (findImageMatches s)
        ((sortByKey (fun x => strFind s x.data) vars).map
          (fun i => (i, stringInputDef)))
      rw [hkeys0] at hpre
      rw [← hr]
      exact hpre
  · rfl

/-- C5 witness: on the worked example the overridden token looks up to the
image definition and the initial order is preserved. -/
theorem c5_image_override_witness :
    lookupKV [("image_input", imageInputDef), ("str_input", stringInputDef)]
      "image_input" = some imageInputDef ∧
    List.IsPrefix
      (sortByKey (fun x => strFind exTemplate x.data)
        ["image_input", "str_input"])
      (([("image_input", imageInputDef),
         ("str_input", stringInputDef)]).map Prod.fst) := by
  obtain ⟨h1, h2⟩ := c5_image_override.1 exTemplate
    ["image_input", "str_input"]
    [("image_input", imageInputDef), ("str_input", stringInputDef)] rfl rfl
  refine ⟨?_, h2⟩
  have := h1 ("image".data, "image_input".data) (by
    show _ ∈ findImageMatches exTemplate
    rw [show findImageMatches exTemplate =
      [("image".data, "image_input".data)] from rfl]
    exact List.mem_cons_self _ _)
  exact this

end ToolUtils
